import Mathlib

/-!
Verification of the postbag wire-format engine: a shallow embedding of the
varint codec, the zigzag fold, the skippable-block stack (encode and decode
side), the length-marker multiplexing and the identifier codec, with proofs
of the round-trip and error-handling properties of the format.

Sources embedded here:
* `src/src/de/deserializer.rs` — varint decode loops, zigzag unfold, length
  markers, identifier decode, sequence/map/struct access;
* `src/source/postcard/src/ser/serializer.rs` — zigzag fold, length markers,
  struct-field framing;
* `src/source/postcard/src/ser/skippable.rs` and
  `src/source/postcard/src/de/skippable.rs` — the skippable-block stacks.

The crate's own `varint.rs` and parts of its serializer are not present in
the source tree (only their module declarations and tests are); those pieces
are modelled from the spec, and each such definition says so in its
doc comment.  Machine integers are modelled as `Nat` bit patterns with
explicit `% 2 ^ w` where the Rust code wraps.
-/

deriving instance DecidableEq for Except

namespace Postbag

/-- Chunk length limit of a skippable block: `u16::MAX` (source: `SkipBlock::MAX_LEN`). -/
def MAX_LEN : Nat := 65535

/-- Sentinel length marker (source constant `SPECIAL_LEN`). -/
def SPECIAL_LEN : Nat := 125

/-- Second marker signalling an unknown length (source constant `UNKNOWN_LEN`). -/
def UNKNOWN_LEN : Nat := 0

/-- Identifier length-escape marker (source constant `ID_LEN`). -/
def ID_LEN : Nat := 64

/-- First compact numeric identifier code (source constant `ID_LEN_NAME = ID_LEN + 1`). -/
def ID_LEN_NAME : Nat := 65

/-- Number of compact numeric identifiers (source constant `ID_COUNT`). -/
def ID_COUNT : Nat := 60

/-- Decode/encode outcomes (source: `src/src/error.rs`).  `io` stands for an
error of the underlying reader or writer (`Error::Io`); `panicked` models a
Rust panic — a caller protocol violation that aborts rather than being
returned as a data error. -/
inductive Err where
  | io
  | endOfBlock
  | badVarint
  | badBool
  | badLen
  | badIdentifier
  | usizeOverflow
  | panicked
  deriving DecidableEq, Repr

/-- Modelled from the spec: maximum number of bytes of a varint for an
integer that is `nb` bytes wide (`varint_max` of the crate's `varint.rs`,
which is absent from the source tree; spec section 4.1 fixes it as the
number of 7-bit groups covering `8 * nb` bits). -/
def varint_max (nb : Nat) : Nat := (8 * nb + 6) / 7

/-- Modelled from the spec: largest admissible final byte of a
maximal-length varint (`max_of_last_byte` of the absent `varint.rs`; spec
section 3: the final byte's unused high bits must be zero). -/
def max_of_last_byte (nb : Nat) : Nat := 2 ^ (8 * nb % 7) - 1

/-- Modelled from the spec: the varint encoder loop (`varint_uN` of the
absent `varint.rs`; spec sections 3 and 4.1): emit the low 7 bits of the
value with the continuation bit while the value is `≥ 128`, and the value
itself as the terminal byte otherwise.  `fuel` is the loop bound
`varint_max`; it suffices for every in-range value. -/
def varint_enc_loop : Nat → Nat → List Nat
  | 0, _ => []
  | fuel + 1, v => if v < 128 then [v] else (v % 128 + 128) :: varint_enc_loop fuel (v / 128)

/-- Varint encoding of a value of an `nb`-byte-wide unsigned integer type. -/
def varint_enc (nb v : Nat) : List Nat := varint_enc_loop (varint_max nb) v

/-- `zig_zag_iN` (source: ser/serializer.rs lines 573–587) on the
two's-complement bit pattern `u < 2 ^ w` of a signed `w`-bit integer:
`((n << 1) ^ (n >> (w - 1))) as uN` — the left shift wraps modulo `2 ^ w`
and the arithmetic right shift by `w - 1` yields 0 for a non-negative `n`
and all ones for a negative `n`. -/
def zig_zag (w u : Nat) : Nat :=
  2 * u % 2 ^ w ^^^ (if u < 2 ^ (w - 1) then 0 else 2 ^ w - 1)

/-- `de_zig_zag_iN` (source: de/deserializer.rs lines 601–615) on bit
patterns: `((n >> 1) as iN) ^ (-((n & 1) as iN))` — a logical right shift,
and the negated low bit is 0 or all ones. -/
def de_zig_zag (w n : Nat) : Nat :=
  n >>> 1 ^^^ (if n % 2 = 1 then 2 ^ w - 1 else 0)

/-- Decode-side skippable-block stack (source: de/skippable.rs,
`SkipStack`/`SkipBlock`).  `base` holds the bytes remaining in the
underlying reader; `block` is an open skippable block with `remaining`
unread bytes of the current chunk and the `hasNext` flag telling whether
another chunk may follow. -/
inductive DStack where
  | base (bs : List Nat)
  | block (inner : DStack) (remaining : Nat) (hasNext : Bool)
  deriving DecidableEq, Repr

namespace DStack

/-- Number of open skippable blocks. -/
def depth : DStack → Nat
  | .base _ => 0
  | .block inner _ _ => inner.depth + 1

/-- Bytes left in the underlying reader. -/
def sizeB : DStack → Nat
  | .base bs => bs.length
  | .block inner _ _ => inner.sizeB

/-- Reading `ct` bytes from the base reader; running past the end of input
is an error of the underlying reader. -/
def baseTake (bs : List Nat) (ct : Nat) : (Except Err (List Nat)) × DStack :=
  if ct ≤ bs.length then (.ok (bs.take ct), .base (bs.drop ct))
  else (.error .io, .base bs)

/-- The varint decoding loop (source: `read_varint_u16/u32/u64/u128` in
de/deserializer.rs lines 44–114 — one copy per width with identical bodies —
and `SkipStack::try_take_varint_u16` in de/skippable.rs lines 78–94),
parameterised by the function `tk` used to pop single bytes.  `i` is the
loop index and `fuel` the number of iterations left, `varint_max nb - i`;
the accumulation `out |= carry << (7 * i)` wraps modulo the integer width
exactly as the Rust shift does. -/
def rvLoop (tk : DStack → Nat → (Except Err (List Nat)) × DStack) (nb : Nat) :
    Nat → Nat → Nat → DStack → (Except Err Nat) × DStack
  | 0, _, _, s => (.error .badVarint, s)
  | fuel + 1, i, out, s =>
    match tk s 1 with
    | (.error e, s1) => (.error e, s1)
    | (.ok l, s1) =>
      let val := l.headD 0
      let out := out ||| ((val &&& 127) <<< (7 * i)) % 2 ^ (8 * nb)
      if val &&& 128 = 0 then
        if i = varint_max nb - 1 ∧ max_of_last_byte nb < val then (.error .badVarint, s1)
        else (.ok out, s1)
      else rvLoop tk nb fuel (i + 1) out s1

/-- `SkipBlock::update_remaining` (source: de/skippable.rs lines 118–127):
when the current chunk is exhausted and another chunk may follow, read the
next chunk-length header (a varint u16) from the inner stack and set
`has_next_block` to whether the chunk is full-length. -/
def updateRem (tk : DStack → Nat → (Except Err (List Nat)) × DStack)
    (inner : DStack) (rem : Nat) (hn : Bool) : (Except Err Unit) × DStack × Nat × Bool :=
  if 0 < rem ∨ hn = false then (.ok (), inner, rem, hn)
  else
    match rvLoop tk 2 (varint_max 2) 0 0 inner with
    | (.error e, inner1) => (.error e, inner1, rem, hn)
    | (.ok len, inner1) => (.ok (), inner1, len, decide (len = MAX_LEN))

/-- The multi-chunk gathering loop of `SkipBlock::try_take_n` (source:
de/skippable.rs lines 138–152): satisfy a read of `ct` bytes across chunk
boundaries; a chunk exhausted with no successor is `EndOfBlock`.  `fuel`
bounds the iterations and is initialised to `ct`, which suffices because
every iteration consumes at least one byte of the request. -/
def blockLoop (tk : DStack → Nat → (Except Err (List Nat)) × DStack) :
    Nat → DStack → Nat → Bool → Nat → List Nat → (Except Err (List Nat)) × DStack
  | 0, inner, rem, hn, ct, acc =>
    if ct = 0 then (.ok acc, .block inner rem hn) else (.error .io, .block inner rem hn)
  | fuel + 1, inner, rem, hn, ct, acc =>
    if ct = 0 then (.ok acc, .block inner rem hn)
    else
      match updateRem tk inner rem hn with
      | (.error e, inner1, rem1, hn1) => (.error e, .block inner1 rem1 hn1)
      | (.ok _, inner1, rem1, hn1) =>
        if rem1 = 0 then (.error .endOfBlock, .block inner1 rem1 hn1)
        else
          let n := min ct rem1
          match tk inner1 n with
          | (.error e, inner2) => (.error e, .block inner2 rem1 hn1)
          | (.ok buf, inner2) => blockLoop tk fuel inner2 (rem1 - n) hn1 (ct - n) (acc ++ buf)

/-- `SkipBlock::try_take_n` (source: de/skippable.rs lines 129–153): the
fast path serves the read from the current chunk; otherwise the chunk loop
gathers the bytes. -/
def blockTake (tk : DStack → Nat → (Except Err (List Nat)) × DStack)
    (inner : DStack) (rem : Nat) (hn : Bool) (ct : Nat) : (Except Err (List Nat)) × DStack :=
  match updateRem tk inner rem hn with
  | (.error e, inner1, rem1, hn1) => (.error e, .block inner1 rem1 hn1)
  | (.ok _, inner1, rem1, hn1) =>
    if ct ≤ rem1 then
      match tk inner1 ct with
      | (.error e, inner2) => (.error e, .block inner2 rem1 hn1)
      | (.ok buf, inner2) => (.ok buf, .block inner2 (rem1 - ct) hn1)
    else blockLoop tk ct inner1 rem1 hn1 ct []

/-- Reading through the skip stack, stratified by the block depth `d`: the
Rust methods recurse structurally into the inner stack, and `d` (any bound
on the depth) makes that recursion explicit.  The depth-0 block case is
unreachable whenever `d` bounds the depth. -/
def takeND : Nat → DStack → Nat → (Except Err (List Nat)) × DStack
  | _, .base bs, ct => baseTake bs ct
  | 0, .block inner rem hn, _ => (.error .io, .block inner rem hn)
  | d + 1, .block inner rem hn, ct => blockTake (takeND d) inner rem hn ct

/-- `SkipStack::try_take_n` (source: de/skippable.rs lines 39–46);
`pop` is `try_take_n 1`. -/
def takeN (s : DStack) (ct : Nat) : (Except Err (List Nat)) × DStack :=
  takeND s.depth s ct

/-- The drain loop of `SkipBlock::finish` (source: de/skippable.rs lines
155–168): read and discard every remaining chunk through the terminal one.
`fuel` bounds the iterations; the caller passes `sizeB + 1`, which suffices
because every iteration that continues consumes input. -/
def finLoop : Nat → DStack → Nat → Bool → (Except Err Unit) × DStack
  | 0, inner, rem, hn => (.error .io, .block inner rem hn)
  | fuel + 1, inner, rem, hn =>
    match updateRem takeN inner rem hn with
    | (.error e, inner1, rem1, hn1) => (.error e, .block inner1 rem1 hn1)
    | (.ok _, inner1, rem1, hn1) =>
      if 0 < rem1 then
        match takeN inner1 rem1 with
        | (.error e, inner2) => (.error e, .block inner2 rem1 hn1)
        | (.ok _, inner2) => finLoop fuel inner2 0 hn1
      else (.ok (), inner1)

/-- `SkipStack::start_skippable` (source: de/skippable.rs lines 48–54):
push a fresh block with `remaining = 0` and `has_next_block = true`. -/
def startSkippable (s : DStack) : DStack := .block s 0 true

/-- `SkipStack::end_skippable` (source: de/skippable.rs lines 56–67): drain
the open block and pop it.  Calling it with no block open is a caller
protocol violation — Rust panics, modelled by the distinguished outcome
`Err.panicked`. -/
def endSkippable : DStack → (Except Err Unit) × DStack
  | .base bs => (.error .panicked, .base bs)
  | .block inner rem hn => finLoop (inner.sizeB + 1) inner rem hn

/-- `SkipStack::into_inner` (source: de/skippable.rs lines 69–76): recover
the underlying reader; panics while a block is still open. -/
def intoInner : DStack → Except Err (List Nat)
  | .base bs => .ok bs
  | .block _ _ _ => .error .panicked

end DStack

/-- `Deserializer::read_varint_uN` (source: de/deserializer.rs lines
44–114), for the unsigned integer type that is `nb` bytes wide; the bytes
are popped through the skip stack. -/
def readVarint (nb : Nat) (s : DStack) : (Except Err Nat) × DStack :=
  DStack.rvLoop DStack.takeN nb (varint_max nb) 0 0 s

/-- `try_take_varint_usize` (source: de/deserializer.rs lines 39–42): usize
is decoded via the 64-bit path; on the modelled 64-bit platform the
conversion to usize always succeeds. -/
def readUsize (s : DStack) : (Except Err Nat) × DStack := readVarint 8 s

/-- Encode-side skippable-block stack (source: ser/skippable.rs,
`SkipStack`/`SkipBlock`).  `wbase out` holds the bytes already written to
the underlying writer; `wblock` is an open block with its accumulation
buffer. -/
inductive WStack where
  | wbase (out : List Nat)
  | wblock (inner : WStack) (buf : List Nat)
  deriving DecidableEq, Repr

namespace WStack

/-- Number of open skippable blocks on the encode side. -/
def wdepth : WStack → Nat
  | .wbase _ => 0
  | .wblock inner _ => inner.wdepth + 1

/-- The flush loop of `SkipBlock::flush_buf_if_required` (source:
ser/skippable.rs lines 92–100): while the buffer holds at least `MAX_LEN`
bytes, split off a full chunk and write it (its varint-u16 length, then the
bytes — `flush_buf`, lines 102–108) to the inner stack through `wrF`.
`fuel` bounds the iterations; the caller passes the buffer length, which
suffices because every iteration removes `MAX_LEN ≥ 1` bytes. -/
def flushLoop (wrF : WStack → List Nat → WStack) :
    Nat → WStack → List Nat → WStack × List Nat
  | 0, inner, buf => (inner, buf)
  | fuel + 1, inner, buf =>
    if MAX_LEN ≤ buf.length then
      let chunk := buf.take MAX_LEN
      flushLoop wrF fuel (wrF (wrF inner (varint_enc 2 chunk.length)) chunk) (buf.drop MAX_LEN)
    else (inner, buf)

/-- `SkipStack::write`/`SkipBlock::write` (source: ser/skippable.rs lines
60–99), stratified by the block depth `d` exactly as `DStack.takeND` is:
append to the innermost buffer and flush full chunks.  The depth-0 block
case is unreachable whenever `d` bounds the depth. -/
def writeND : Nat → WStack → List Nat → WStack
  | _, .wbase out, data => .wbase (out ++ data)
  | 0, .wblock inner buf, data => .wblock inner (buf ++ data)
  | d + 1, .wblock inner buf, data =>
    let p := flushLoop (writeND d) (buf ++ data).length inner (buf ++ data)
    .wblock p.1 p.2

/-- `SkipWrite::write` (source: ser/skippable.rs lines 18–21). -/
def write (w : WStack) (data : List Nat) : WStack := writeND w.wdepth w data

/-- `SkipWrite::start_skippable` (source: ser/skippable.rs lines 23–29):
push a block with an empty buffer. -/
def startSkippableW (w : WStack) : WStack := .wblock w []

/-- `SkipWrite::end_skippable` + `SkipBlock::finish` (source:
ser/skippable.rs lines 31–39 and 110–115): flush the remaining buffer as
the terminal chunk and pop the block.  Panics (`Err.panicked`) when no
block is open, and — the source's `assert_ne!` — when the buffer holds
exactly `MAX_LEN` bytes; the write path keeps the buffer strictly below
`MAX_LEN`, so the assert never fires after legitimate writes. -/
def endSkippableW : WStack → Except Err WStack
  | .wbase _ => .error .panicked
  | .wblock inner buf =>
    if buf.length = MAX_LEN then .error .panicked
    else .ok (write (write inner (varint_enc 2 buf.length)) buf)

/-- `SkipWrite::into_inner` (source: ser/skippable.rs lines 41–51): recover
the written bytes; panics while a block is still open. -/
def intoInnerW : WStack → Except Err (List Nat)
  | .wbase out => .ok out
  | .wblock _ _ => .error .panicked

end WStack

/-- Closed form of the byte stream a skippable block emits for the total
data `d` written into it: full `MAX_LEN` chunks, then the terminal chunk
(shorter than `MAX_LEN`, possibly empty), each preceded by its varint-u16
length.  `fuel` bounds the recursion; `d.length` suffices. -/
def chunksF : Nat → List Nat → List Nat
  | 0, d => varint_enc 2 d.length ++ d
  | fuel + 1, d =>
    if MAX_LEN ≤ d.length then
      varint_enc 2 MAX_LEN ++ d.take MAX_LEN ++ chunksF fuel (d.drop MAX_LEN)
    else varint_enc 2 d.length ++ d

/-- The encoded skippable block holding the data `d`. -/
def chunksOf (d : List Nat) : List Nat := chunksF d.length d

/-- `Serializer::write_usize` (source: ser/serializer.rs lines 39–42):
a usize is written through the 64-bit varint path. -/
def writeUsize (w : WStack) (n : Nat) : WStack := w.write (varint_enc 8 n)

/-- The length-marker prefix written by `serialize_seq` (source:
ser/serializer.rs lines 233–251): a known length other than `SPECIAL_LEN`
is a single varint; the length `SPECIAL_LEN` itself is the sentinel twice;
an unknown length is the sentinel, then `UNKNOWN_LEN`, then the opening of
a skippable block around the elements. -/
def serSeqLen : Option Nat → WStack → WStack
  | some len, w =>
    if len = SPECIAL_LEN then writeUsize (writeUsize w SPECIAL_LEN) SPECIAL_LEN
    else writeUsize w len
  | none, w => WStack.startSkippableW (writeUsize (writeUsize w SPECIAL_LEN) UNKNOWN_LEN)

/-- The length-marker parse performed by `deserialize_seq` and
`deserialize_map` (source: de/deserializer.rs lines 456–470 and 495–509):
`some n` is a known length, `none` the unknown-length regime with the
skippable block opened. -/
def readSeqLen (s : DStack) : (Except Err (Option Nat)) × DStack :=
  match readUsize s with
  | (.error e, s1) => (.error e, s1)
  | (.ok n, s1) =>
    if n = SPECIAL_LEN then
      match readUsize s1 with
      | (.error e, s2) => (.error e, s2)
      | (.ok m, s2) =>
        if m = SPECIAL_LEN then (.ok (some SPECIAL_LEN), s2)
        else if m = UNKNOWN_LEN then (.ok none, s2.startSkippable)
        else (.error .badLen, s2)
    else (.ok (some n), s1)

/-- Modelled from the spec (and the Rust standard library's
`String::from_utf8`, external to the crate): the UTF-8 validity check used
by identifier and string decoding — RFC 3629 byte ranges, surrogates and
overlong forms excluded. -/
def utf8Valid : List Nat → Bool
  | [] => true
  | b :: r =>
    if b < 0x80 then utf8Valid r
    else if 0xC2 ≤ b ∧ b ≤ 0xDF then
      match r with
      | c1 :: r1 => decide (0x80 ≤ c1 ∧ c1 ≤ 0xBF) && utf8Valid r1
      | _ => false
    else if 0xE0 ≤ b ∧ b ≤ 0xEF then
      match r with
      | c1 :: c2 :: r2 =>
        let lo := if b = 0xE0 then 0xA0 else 0x80
        let hi := if b = 0xED then 0x9F else 0xBF
        decide (lo ≤ c1 ∧ c1 ≤ hi) && decide (0x80 ≤ c2 ∧ c2 ≤ 0xBF) && utf8Valid r2
      | _ => false
    else if 0xF0 ≤ b ∧ b ≤ 0xF4 then
      match r with
      | c1 :: c2 :: c3 :: r3 =>
        let lo := if b = 0xF0 then 0x90 else 0x80
        let hi := if b = 0xF4 then 0x8F else 0xBF
        decide (lo ≤ c1 ∧ c1 ≤ hi) && decide (0x80 ≤ c2 ∧ c2 ≤ 0xBF) &&
          decide (0x80 ≤ c3 ∧ c3 ≤ 0xBF) && utf8Valid r3
      | _ => false
    else false

/-- ASCII decimal digits of `n` for `n < 100` — the decode side only forms
names `_<id>` with `id < ID_COUNT ≤ 100` (`format!("_{id}")` in
de/deserializer.rs line 125). -/
def decimalDigits (n : Nat) : List Nat :=
  if n < 10 then [48 + n] else [48 + n / 10, 48 + n % 10]

/-- The UTF-8 bytes of the compact name `_<n>`. -/
def underscoreName (n : Nat) : List Nat := 95 :: decimalDigits n

/-- Modelled from the spec: recognition of a compact numeric identifier — a
name of the form `_<N>` with `N < ID_COUNT` (spec section 3, identifier
case (c)); the encoder half of the identifier codec is part of the crate's
serializer, which is absent from the source tree. -/
def idNum (name : List Nat) : Option Nat :=
  (List.range ID_COUNT).find? (fun n => name == underscoreName n)

/-- Modelled from the spec: `encode_identifier` (spec sections 3 and 4.2;
the serializer half is absent from the source tree).  A compact name is a
single varint `ID_LEN_NAME + N`; a name shorter than `ID_LEN` is its length
then its bytes; a longer name is the `ID_LEN` marker, the actual length,
then the bytes. -/
def encode_identifier (name : List Nat) : List Nat :=
  match idNum name with
  | some n => varint_enc 8 (ID_LEN_NAME + n)
  | none =>
    if name.length < ID_LEN then varint_enc 8 name.length ++ name
    else varint_enc 8 ID_LEN ++ varint_enc 8 name.length ++ name

/-- `read_identifier` (source: de/deserializer.rs lines 116–132): reject a
first varint of `ID_LEN_NAME + ID_COUNT` or more; decode a compact numeric
identifier back to `_<id>`; otherwise read the (possibly escaped) length,
then the name bytes, which must be valid UTF-8. -/
def read_identifier (s : DStack) : (Except Err (List Nat)) × DStack :=
  match readUsize s with
  | (.error e, s1) => (.error e, s1)
  | (.ok v, s1) =>
    if ID_LEN_NAME + ID_COUNT ≤ v then (.error .badIdentifier, s1)
    else if ID_LEN_NAME ≤ v then (.ok (underscoreName (v - ID_LEN_NAME)), s1)
    else
      match (if v = ID_LEN then readUsize s1 else (.ok v, s1)) with
      | (.error e, s2) => (.error e, s2)
      | (.ok len, s2) =>
        match s2.takeN len with
        | (.error e, s3) => (.error e, s3)
        | (.ok bytes, s3) =>
          if utf8Valid bytes then (.ok bytes, s3) else (.error .badIdentifier, s3)

/-- Encoding of one Full-config struct field (source: ser/serializer.rs
lines 503–536, `SerializeStruct::serialize_field` with identifiers): the
field's identifier, then its value inside its own skippable block.  Field
values here are u64, written as varints. -/
def serStructField (w : WStack) (name : List Nat) (v : Nat) : Except Err WStack :=
  WStack.endSkippableW
    ((WStack.startSkippableW (w.write (encode_identifier name))).write (varint_enc 8 v))

/-- Full-config struct encoding (source: ser/serializer.rs lines 286–294,
`serialize_struct`, then one `serialize_field` per field): the varint field
count, then each field. -/
def serStructFull (w : WStack) (fs : List (List Nat × Nat)) : Except Err WStack :=
  match fs with
  | [] => .ok w
  | (name, v) :: rest =>
    match serStructField w name v with
    | .error e => .error e
    | .ok w1 => serStructFull w1 rest

/-- Full-config struct encoding including the leading field count. -/
def serStruct (w : WStack) (fs : List (List Nat × Nat)) : Except Err WStack :=
  serStructFull (writeUsize w fs.length) fs

/-- Full-config struct decoding (source: de/deserializer.rs lines 520–536,
`deserialize_struct` with identifiers, driving `StructFieldAccess` lines
189–220): read the field count, then for each field its identifier and its
skip-block-wrapped value.  `known` is the set of field names the reader's
type declares; for an unknown field the derived visitor requests
`deserialize_ignored_any`, which reads nothing (de/deserializer.rs lines
554–559), so `end_skippable` drains the whole field value and the field is
omitted. -/
def readStructFields (known : List Nat → Bool) :
    Nat → DStack → (Except Err (List (List Nat × Nat))) × DStack
  | 0, s => (.ok [], s)
  | len + 1, s =>
    match read_identifier s with
    | (.error e, s1) => (.error e, s1)
    | (.ok name, s1) =>
      let s2 := s1.startSkippable
      match (if known name then
                match readVarint 8 s2 with
                | (.error e, t) => (.error e, t)
                | (.ok v, t) => (.ok (some v), t)
              else ((.ok none : Except Err (Option Nat)), s2)) with
      | (.error e, s3) => (.error e, s3)
      | (.ok v, s3) =>
        match s3.endSkippable with
        | (.error e, s4) => (.error e, s4)
        | (.ok _, s4) =>
          match readStructFields known len s4 with
          | (.error e, s5) => (.error e, s5)
          | (.ok rest, s5) =>
            (.ok (match v with | some v0 => (name, v0) :: rest | none => rest), s5)

/-- Full-config struct decoding including the leading field count. -/
def readStruct (known : List Nat → Bool) (s : DStack) :
    (Except Err (List (List Nat × Nat))) × DStack :=
  match readUsize s with
  | (.error e, s1) => (.error e, s1)
  | (.ok len, s1) => readStructFields known len s1

/-- Modelled from the spec: unknown-length map encoding (spec section 4.4;
the crate's `ser/serializer.rs` is declared in `src/src/ser/mod.rs` but
absent from the source tree — its `serialize_map` handles an unknown length
exactly as the present `serialize_seq` does, writing the sentinel pair and
framing the pairs in a skippable block, and `SerializeMap::end` closes the
block).  Keys and values here are u64 varints. -/
def serMapUnknown (w : WStack) (ps : List (Nat × Nat)) : Except Err WStack :=
  WStack.endSkippableW
    (ps.foldl (fun acc p => (acc.write (varint_enc 8 p.1)).write (varint_enc 8 p.2))
      (serSeqLen none w))

/-- The pair-reading loop of unknown-length map decoding (source:
de/deserializer.rs lines 227–253, `MapAccess` with `len = None`, as driven
by a map visitor): decode key/value pairs until the key decode fails with
`EndOfBlock`, which ends the map; any other error propagates.  `fuel`
bounds the iterations; the decoder's caller passes `sizeB + 1`, sufficient
because every pair consumes input. -/
def readMapPairs : Nat → DStack → (Except Err (List (Nat × Nat))) × DStack
  | 0, s => (.error .io, s)
  | fuel + 1, s =>
    match readVarint 8 s with
    | (.error .endOfBlock, s1) => (.ok [], s1)
    | (.error e, s1) => (.error e, s1)
    | (.ok k, s1) =>
      match readVarint 8 s1 with
      | (.error e, s2) => (.error e, s2)
      | (.ok v, s2) =>
        match readMapPairs fuel s2 with
        | (.error e, s3) => (.error e, s3)
        | (.ok rest, s3) => (.ok ((k, v) :: rest), s3)

/-- The pair-reading loop of known-length map decoding (source:
de/deserializer.rs lines 230–244, `MapAccess` with `len = Some n`): exactly
`n` key/value pairs. -/
def readMapPairsKnown : Nat → DStack → (Except Err (List (Nat × Nat))) × DStack
  | 0, s => (.ok [], s)
  | n + 1, s =>
    match readVarint 8 s with
    | (.error e, s1) => (.error e, s1)
    | (.ok k, s1) =>
      match readVarint 8 s1 with
      | (.error e, s2) => (.error e, s2)
      | (.ok v, s2) =>
        match readMapPairsKnown n s2 with
        | (.error e, s3) => (.error e, s3)
        | (.ok rest, s3) => (.ok ((k, v) :: rest), s3)

/-- Map decoding (source: de/deserializer.rs lines 495–518,
`deserialize_map`, driving `MapAccess`): parse the length marker; with a
known length read exactly that many pairs; in the unknown-length regime
read pairs until `EndOfBlock`, then `end_skippable` the block. -/
def readMap (s : DStack) : (Except Err (List (Nat × Nat))) × DStack :=
  match readSeqLen s with
  | (.error e, s1) => (.error e, s1)
  | (.ok (some n), s1) => readMapPairsKnown n s1
  | (.ok none, s1) =>
    match readMapPairs (s1.sizeB + 1) s1 with
    | (.error e, s2) => (.error e, s2)
    | (.ok ps, s2) =>
      match s2.endSkippable with
      | (.error e, s3) => (.error e, s3)
      | (.ok _, s3) => (.ok ps, s3)

/-- `SeqAccess::next_element_seed` / `MapAccess::next_key_seed` in the
unknown-length regime (source: de/deserializer.rs lines 151–155 and
238–242): run the element decoder; `EndOfBlock` becomes the regular end of
the collection, every other error propagates. -/
def nextElementUnknown {α : Type} (dec : DStack → (Except Err α) × DStack) (s : DStack) :
    (Except Err (Option α)) × DStack :=
  match dec s with
  | (.ok a, s1) => (.ok (some a), s1)
  | (.error .endOfBlock, s1) => (.ok none, s1)
  | (.error e, s1) => (.error e, s1)

/-! ## Varint codec lemmas -/

theorem and_127_eq_mod (x : Nat) : x &&& 127 = x % 128 := by
  have h : (127 : Nat) = 2 ^ 7 - 1 := rfl
  have h2 : (128 : Nat) = 2 ^ 7 := rfl
  rw [h, h2, Nat.and_pow_two_sub_one_eq_mod]

theorem and_128_eq_zero_iff (x : Nat) : x &&& 128 = 0 ↔ x % 256 < 128 := by
  have h2 : (128 : Nat) = 2 ^ 7 := rfl
  rw [h2, Nat.and_two_pow, Nat.testBit_to_div_mod]
  rw [show (2:Nat) ^ 7 = 128 from rfl]
  by_cases hb : x / 128 % 2 = 1
  · simp [hb]; omega
  · simp [hb]; omega

theorem varint_max_pos {nb : Nat} (h : 1 ≤ nb) : 1 ≤ varint_max nb := by
  simp only [varint_max]; omega

/-- Core decode-of-encode invariant of the varint loop, over an abstract
stream characterisation: `P s D` means the state `s` next yields exactly
the bytes `D` (whatever follows them is fixed inside `P`). -/
theorem rvLoop_gen {tk : DStack → Nat → (Except Err (List Nat)) × DStack}
    {P : DStack → List Nat → Prop}
    (hpop : ∀ s b D, P s (b :: D) → ∃ s1, tk s 1 = (.ok [b], s1) ∧ P s1 D)
    {nb : Nat} (hnb7 : 8 * nb % 7 ≠ 0) :
    ∀ fuel i out v s, i + fuel = varint_max nb → 1 ≤ fuel →
      v < 2 ^ (8 * nb - 7 * i) → out < 2 ^ (7 * i) →
      P s (varint_enc_loop fuel v) →
      ∃ s2, DStack.rvLoop tk nb fuel i out s = (.ok (out + v * 2 ^ (7 * i)), s2) ∧ P s2 [] := by
  intro fuel
  induction fuel with
  | zero => omega
  | succ f ih =>
    intro i out v s hiv hf hv hout hP
    have hi8 : 7 * i < 8 * nb := by
      simp only [varint_max] at hiv
      omega
    by_cases hlt : v < 128
    · -- terminal byte
      rw [varint_enc_loop] at hP
      rw [if_pos hlt] at hP
      obtain ⟨s1, htk, hP1⟩ := hpop s v [] hP
      have hand : v &&& 127 = v := by rw [and_127_eq_mod]; omega
      have hcont : v &&& 128 = 0 := by rw [and_128_eq_zero_iff]; omega
      have hshift : (v <<< (7 * i)) % 2 ^ (8 * nb) = v * 2 ^ (7 * i) := by
        rw [Nat.shiftLeft_eq]
        apply Nat.mod_eq_of_lt
        calc v * 2 ^ (7 * i) < 2 ^ (8 * nb - 7 * i) * 2 ^ (7 * i) := by
              apply Nat.mul_lt_mul_right (Nat.pos_pow_of_pos _ (by norm_num)) |>.mpr hv
          _ = 2 ^ (8 * nb) := by rw [← pow_add]; congr 1; omega
      have hor : out ||| v * 2 ^ (7 * i) = out + v * 2 ^ (7 * i) := by
        rw [Nat.or_comm, mul_comm]
        rw [← Nat.mul_add_lt_is_or hout]
        ring
      refine ⟨s1, ?_, hP1⟩
      rw [DStack.rvLoop, htk]
      simp only [List.headD, hand, hshift, hor]
      rw [if_pos hcont]
      have hnotlast : ¬(i = varint_max nb - 1 ∧ max_of_last_byte nb < v) := by
        rintro ⟨hi, hmax⟩
        have h1 : 8 * nb - 7 * i = 8 * nb % 7 := by
          subst hi
          simp only [varint_max]
          omega
        rw [h1] at hv
        simp only [max_of_last_byte] at hmax
        have hone : 1 ≤ 2 ^ (8 * nb % 7) := Nat.one_le_two_pow
        omega
      rw [if_neg hnotlast]
    · -- continuation byte
      rw [varint_enc_loop] at hP
      rw [if_neg hlt] at hP
      obtain ⟨s1, htk, hP1⟩ := hpop s (v % 128 + 128) (varint_enc_loop f (v / 128)) hP
      have hand : (v % 128 + 128) &&& 127 = v % 128 := by rw [and_127_eq_mod]; omega
      have hcont : ¬((v % 128 + 128) &&& 128 = 0) := by rw [and_128_eq_zero_iff]; omega
      have h7 : 7 < 8 * nb - 7 * i := by
        rcases Nat.lt_or_ge 7 (8 * nb - 7 * i) with h | h
        · exact h
        · exfalso
          have : (2:Nat) ^ (8 * nb - 7 * i) ≤ 2 ^ 7 := Nat.pow_le_pow_right (by norm_num) h
          omega
      have hv1 : v / 128 < 2 ^ (8 * nb - 7 * (i + 1)) := by
        have he : 8 * nb - 7 * i = (8 * nb - 7 * (i + 1)) + 7 := by omega
        rw [he, pow_add] at hv
        have : v < 2 ^ (8 * nb - 7 * (i + 1)) * 128 := by norm_num at hv ⊢; omega
        omega
      have hf1 : 1 ≤ f := by
        by_contra hc
        have hf0 : f = 0 := by omega
        subst hf0
        have : 8 * nb - 7 * (i + 1) = 0 := by
          simp only [varint_max] at hiv
          omega
        rw [this] at hv1
        omega
      have hshift : ((v % 128) <<< (7 * i)) % 2 ^ (8 * nb) = v % 128 * 2 ^ (7 * i) := by
        rw [Nat.shiftLeft_eq]
        apply Nat.mod_eq_of_lt
        calc v % 128 * 2 ^ (7 * i) < 2 ^ 7 * 2 ^ (7 * i) := by
              apply (Nat.mul_lt_mul_right (Nat.pos_pow_of_pos _ (by norm_num))).mpr
              have : v % 128 < 128 := Nat.mod_lt _ (by norm_num)
              omega
          _ ≤ 2 ^ (8 * nb) := by rw [← pow_add]; exact Nat.pow_le_pow_right (by norm_num) (by omega)
      have hor : out ||| v % 128 * 2 ^ (7 * i) = out + v % 128 * 2 ^ (7 * i) := by
        rw [Nat.or_comm, mul_comm]
        rw [← Nat.mul_add_lt_is_or hout]
        ring
      have hout1 : out + v % 128 * 2 ^ (7 * i) < 2 ^ (7 * (i + 1)) := by
        have h128 : v % 128 < 128 := Nat.mod_lt _ (by norm_num)
        have he : (2:Nat) ^ (7 * (i + 1)) = 2 ^ (7 * i) * 128 := by
          rw [show 7 * (i + 1) = 7 * i + 7 by ring, pow_add]; norm_num
        have : v % 128 * 2 ^ (7 * i) ≤ 127 * 2 ^ (7 * i) :=
          Nat.mul_le_mul_right _ (by omega)
        omega
      obtain ⟨s2, hrec, hP2⟩ := ih (i + 1) (out + v % 128 * 2 ^ (7 * i)) (v / 128) s1
        (by omega) hf1 hv1 hout1 hP1
      refine ⟨s2, ?_, hP2⟩
      rw [DStack.rvLoop, htk]
      simp only [List.headD, hand, hshift, hor]
      rw [if_neg hcont, hrec]
      congr 2
      have he : (2:Nat) ^ (7 * (i + 1)) = 2 ^ (7 * i) * 128 := by
        rw [show 7 * (i + 1) = 7 * i + 7 by ring, pow_add]; norm_num
      rw [he]
      have hdm : 128 * (v / 128) + v % 128 = v := Nat.div_add_mod v 128
      calc out + v % 128 * 2 ^ (7 * i) + v / 128 * (2 ^ (7 * i) * 128)
          = out + (v % 128 + 128 * (v / 128)) * 2 ^ (7 * i) := by ring
        _ = out + v * 2 ^ (7 * i) := by rw [Nat.add_comm (v % 128)]; rw [hdm]

theorem takeN_base (bs : List Nat) (n : Nat) :
    DStack.takeN (.base bs) n = DStack.baseTake bs n := rfl

/-- Varint decode of a varint encoding at the start of the base stream. -/
theorem readVarint_enc {nb : Nat} (hnb7 : 8 * nb % 7 ≠ 0) (v : Nat) (R : List Nat)
    (hv : v < 2 ^ (8 * nb)) :
    readVarint nb (.base (varint_enc nb v ++ R)) = (.ok v, .base R) := by
  have hnb : 1 ≤ nb := by by_contra h; simp [show nb = 0 by omega] at hnb7
  obtain ⟨s2, heq, hP⟩ := @rvLoop_gen DStack.takeN
    (fun s D => s = .base (D ++ R))
    (fun s b D hP => by
      subst hP
      refine ⟨.base (D ++ R), ?_, rfl⟩
      rw [takeN_base]
      simp [DStack.baseTake])
    nb hnb7 (varint_max nb) 0 0 v (.base (varint_enc nb v ++ R)) (by omega)
    (varint_max_pos hnb) (by simpa using hv) (by norm_num) rfl
  subst hP
  simpa [readVarint, varint_enc] using heq

/-! ## Zigzag round trip -/

theorem zig_zag_roundtrip {w u : Nat} (hw : 1 ≤ w) (hu : u < 2 ^ w) :
    de_zig_zag w (zig_zag w u) = u := by
  have h2w : (2:Nat) ^ w = 2 ^ (w - 1) * 2 := by
    rw [← pow_succ]
    congr 1
    omega
  by_cases hs : u < 2 ^ (w - 1)
  · -- non-negative: zig_zag u = 2 * u, even
    have h2u : 2 * u < 2 ^ w := by omega
    have hz : zig_zag w u = 2 * u := by
      simp [zig_zag, if_pos hs, Nat.mod_eq_of_lt h2u]
    rw [hz, de_zig_zag, if_neg (by omega)]
    simp only [Nat.xor_zero]
    rw [Nat.shiftRight_eq_div_pow, pow_one]
    omega
  · -- negative: zig_zag u = (2 * u - 2 ^ w) ^^^ (2 ^ w - 1), odd
    set x := u - 2 ^ (w - 1) with hx
    have hxlt : x < 2 ^ (w - 1) := by omega
    have hv : 2 * u % 2 ^ w = 2 * x := by
      have h1 : 2 ^ w ≤ 2 * u := by omega
      have h3 : 2 * u - 2 ^ w < 2 ^ w := by omega
      rw [Nat.mod_eq_sub_mod h1, Nat.mod_eq_of_lt h3]
      omega
    have hz : zig_zag w u = 2 * x ^^^ (2 ^ w - 1) := by
      simp [zig_zag, if_neg hs, hv]
    have hodd : (2 * x ^^^ (2 ^ w - 1)) % 2 = 1 := by
      have hb := Nat.testBit_xor (2 * x) (2 ^ w - 1) 0
      rw [Nat.testBit_two_pow_sub_one] at hb
      simp only [Nat.testBit_zero] at hb
      have hl : decide (2 * x % 2 = 1) = false := by
        simp only [decide_eq_false_iff_not]
        omega
      have hr : decide (0 < w) = true := by
        simp only [decide_eq_true_eq]
        omega
      rw [hl, hr] at hb
      simpa using hb
    rw [hz, de_zig_zag, if_pos hodd]
    apply Nat.eq_of_testBit_eq
    intro j
    rw [Nat.testBit_xor, Nat.testBit_shiftRight, Nat.testBit_xor,
      Nat.testBit_two_pow_sub_one, Nat.testBit_two_pow_sub_one]
    have hvx : Nat.testBit (2 * x) (1 + j) = Nat.testBit x j := by
      rw [Nat.add_comm 1 j, Nat.testBit_succ]
      congr 1
      omega
    rw [hvx]
    have hux : u = 2 ^ (w - 1) + x := by omega
    rcases lt_trichotomy j (w - 1) with hj | hj | hj
    · have h1 : decide (1 + j < w) = true := by simp; omega
      have h2 : decide (j < w) = true := by simp; omega
      rw [h1, h2, hux, Nat.testBit_two_pow_add_gt hj]
      cases Nat.testBit x j <;> rfl
    · subst hj
      have h1 : decide (1 + (w - 1) < w) = false := by simp; omega
      have h2 : decide (w - 1 < w) = true := by simp; omega
      rw [h1, h2, hux, Nat.testBit_two_pow_add_eq]
      have hxf : Nat.testBit x (w - 1) = false := Nat.testBit_lt_two_pow hxlt
      rw [hxf]
      rfl
    · have h1 : decide (1 + j < w) = false := by simp; omega
      have h2 : decide (j < w) = false := by simp; omega
      have hxw : Nat.testBit x j = false :=
        Nat.testBit_lt_two_pow (lt_of_lt_of_le hxlt (Nat.pow_le_pow_right (by norm_num) (by omega)))
      have huw : Nat.testBit u j = false :=
        Nat.testBit_lt_two_pow (lt_of_lt_of_le hu (Nat.pow_le_pow_right (by norm_num) (by omega)))
      rw [h1, h2, hxw, huw]
      rfl

/-- C2: Varint/zigzag round-trip: for every unsigned integer of width 16,
32, 64 or 128 bits (`nb ∈ {2, 4, 8, 16}` bytes), decoding the varint
encoding of a value yields the value back, and for every signed integer of
those widths (as its two's-complement bit pattern), zigzag-unfolding the
zigzag-fold yields the value back. -/
theorem c2_varint_zigzag_roundtrip :
    ∀ nb : Nat, nb = 2 ∨ nb = 4 ∨ nb = 8 ∨ nb = 16 →
      (∀ (v : Nat) (R : List Nat), v < 2 ^ (8 * nb) →
        readVarint nb (.base (varint_enc nb v ++ R)) = (.ok v, .base R)) ∧
      (∀ u : Nat, u < 2 ^ (8 * nb) → de_zig_zag (8 * nb) (zig_zag (8 * nb) u) = u) := by
  intro nb hnb
  have hnb7 : 8 * nb % 7 ≠ 0 := by rcases hnb with h | h | h | h <;> subst h <;> decide
  have hw : 1 ≤ 8 * nb := by omega
  exact ⟨fun v R hv => readVarint_enc hnb7 v R hv, fun u hu => zig_zag_roundtrip hw hu⟩

/-- Witness for C2 at width 16: the spec's own test value `0xA5C7` and the
bit pattern of `-5 : i16`. -/
theorem c2_varint_zigzag_roundtrip_witness :
    readVarint 2 (.base (varint_enc 2 42439 ++ [9])) = (.ok 42439, .base [9]) ∧
    de_zig_zag 16 (zig_zag 16 65531) = 65531 :=
  ⟨(c2_varint_zigzag_roundtrip 2 (Or.inl rfl)).1 42439 [9] (by norm_num),
   (c2_varint_zigzag_roundtrip 2 (Or.inl rfl)).2 65531 (by norm_num)⟩

/-! ## Varint error behaviour (C6) -/

theorem rvLoop_all_continuation {nb : Nat} :
    ∀ (fuel i out : Nat) (bs R : List Nat), bs.length = fuel →
      (∀ b ∈ bs, 128 ≤ b ∧ b < 256) →
      DStack.rvLoop DStack.takeN nb fuel i out (.base (bs ++ R)) =
        (.error .badVarint, .base R) := by
  intro fuel
  induction fuel with
  | zero =>
    intro i out bs R hlen _
    have hbs : bs = [] := List.eq_nil_of_length_eq_zero hlen
    subst hbs
    simp [DStack.rvLoop]
  | succ f ih =>
    intro i out bs R hlen hcont
    match bs, hlen with
    | b :: bs, hlen =>
      have hb := hcont b (by simp)
      rw [DStack.rvLoop, takeN_base]
      have h1 : DStack.baseTake (b :: (bs ++ R)) 1 = (.ok [b], .base (bs ++ R)) := by
        simp [DStack.baseTake]
      rw [List.cons_append, h1]
      simp only [List.headD]
      rw [if_neg (by rw [and_128_eq_zero_iff]; omega)]
      exact ih _ _ bs R (by simpa using hlen) (fun x hx => hcont x (by simp [hx]))

theorem rvLoop_bad_terminal {nb : Nat} :
    ∀ (fuel i out f : Nat) (pre R : List Nat), pre.length + 1 = fuel →
      i + fuel = varint_max nb →
      (∀ b ∈ pre, 128 ≤ b ∧ b < 256) → f < 128 → max_of_last_byte nb < f →
      DStack.rvLoop DStack.takeN nb fuel i out (.base (pre ++ f :: R)) =
        (.error .badVarint, .base R) := by
  intro fuel
  induction fuel with
  | zero => omega
  | succ fl ih =>
    intro i out f pre R hlen hiv hcont hf hmax
    match pre, hlen with
    | [], hlen =>
      have hfl : fl = 0 := by simpa using hlen
      subst hfl
      rw [DStack.rvLoop, takeN_base]
      have h1 : DStack.baseTake (([] : List Nat) ++ f :: R) 1 = (.ok [f], .base R) := by
        simp [DStack.baseTake]
      rw [h1]
      simp only [List.headD]
      rw [if_pos (by rw [and_128_eq_zero_iff]; omega)]
      rw [if_pos ⟨by omega, hmax⟩]
    | b :: pre, hlen =>
      have hb := hcont b (by simp)
      rw [DStack.rvLoop, takeN_base]
      have h1 : DStack.baseTake (b :: (pre ++ f :: R)) 1 = (.ok [b], .base (pre ++ f :: R)) := by
        simp [DStack.baseTake]
      rw [List.cons_append, h1]
      simp only [List.headD]
      rw [if_neg (by rw [and_128_eq_zero_iff]; omega)]
      exact ih _ _ f pre R (by simpa using hlen) (by omega)
        (fun x hx => hcont x (by simp [hx])) hf hmax

/-- C6 (amended): varint decoding at every width fails with `BadVarint`
when the input runs past the maximum number of bytes for the width without
a terminating byte, and when the byte at the final position is terminal but
its bits exceed what fits in the remaining bit-width — in particular
`[0xFF, 0xFF, 0xFF, 0xFF, 0x1F]` as a u32 fails; a zero-padded encoding
that terminates before the final position, however, is accepted (only the
final-position byte is canonicality-checked; see the counterexample). -/
theorem c6_varint_rejection :
    ∀ nb : Nat, nb = 2 ∨ nb = 4 ∨ nb = 8 ∨ nb = 16 →
      (∀ (bs R : List Nat), bs.length = varint_max nb →
        (∀ b ∈ bs, 128 ≤ b ∧ b < 256) →
        readVarint nb (.base (bs ++ R)) = (.error .badVarint, .base R)) ∧
      (∀ (f : Nat) (pre R : List Nat), pre.length + 1 = varint_max nb →
        (∀ b ∈ pre, 128 ≤ b ∧ b < 256) → f < 128 → max_of_last_byte nb < f →
        readVarint nb (.base (pre ++ f :: R)) = (.error .badVarint, .base R)) ∧
      readVarint 4 (.base [255, 255, 255, 255, 31]) = (.error .badVarint, .base []) := by
  intro nb _
  refine ⟨fun bs R hl hc => rvLoop_all_continuation _ _ _ bs R hl hc,
    fun f pre R hl hc hf hm => rvLoop_bad_terminal _ _ _ f pre R hl (by omega) hc hf hm,
    ?_⟩
  decide

/-- Witness for C6 at width 32: five continuation bytes overflow, and the
spec's own bad-terminal example. -/
theorem c6_varint_rejection_witness :
    readVarint 4 (.base [255, 255, 255, 255, 255, 7]) = (.error .badVarint, .base [7]) ∧
    readVarint 4 (.base [255, 255, 255, 255, 31]) = (.error .badVarint, .base []) :=
  ⟨(c6_varint_rejection 4 (Or.inr (Or.inl rfl))).1 [255, 255, 255, 255, 255] [7]
      (by decide) (by decide),
   (c6_varint_rejection 4 (Or.inr (Or.inl rfl))).2.2⟩

/-- Counterexample to C6 as stated: the claim says every encoding that pads
a small value with extra zero continuation bytes fails with `BadVarint`,
but `[0x85, 0x00]` — the value 5 padded with a zero byte — decodes
successfully to 5: the decoder canonicality-checks only the byte at the
maximal position. -/
theorem c6_zero_padding_accepted :
    readVarint 2 (.base [133, 0]) = (.ok 5, .base []) ∧
    (Except.ok 5 : Except Err Nat) ≠ .error .badVarint := by
  constructor
  · decide
  · decide

end Postbag

namespace Postbag

/-! ## Length-marker multiplexing (C3) -/

theorem write_wbase (o data : List Nat) : WStack.write (.wbase o) data = .wbase (o ++ data) := rfl

/-- C3: Length-marker multiplexing around `SPECIAL_LEN = 125`: a known
length other than 125 is written and decoded as a single varint marker
standing for itself; the known length 125 is written as the marker 125
twice and decodes to 125; an unknown length is written as the marker 125
followed by `UNKNOWN_LEN = 0` with a skippable block opened around the
elements, and decodes to the unknown-length regime with the block opened;
and a decoder reading the marker 125 followed by a marker that is neither
125 nor 0 fails with `BadLen`. -/
theorem c3_length_marker_multiplexing :
    (∀ (n : Nat) (o : List Nat), n ≠ SPECIAL_LEN →
      serSeqLen (some n) (.wbase o) = .wbase (o ++ varint_enc 8 n)) ∧
    (∀ o : List Nat, serSeqLen (some SPECIAL_LEN) (.wbase o) =
      .wbase (o ++ varint_enc 8 SPECIAL_LEN ++ varint_enc 8 SPECIAL_LEN)) ∧
    (∀ o : List Nat, serSeqLen none (.wbase o) =
      .wblock (.wbase (o ++ varint_enc 8 SPECIAL_LEN ++ varint_enc 8 UNKNOWN_LEN)) []) ∧
    (∀ (n : Nat) (R : List Nat), n < 2 ^ 64 → n ≠ SPECIAL_LEN →
      readSeqLen (.base (varint_enc 8 n ++ R)) = (.ok (some n), .base R)) ∧
    (∀ R : List Nat,
      readSeqLen (.base (varint_enc 8 SPECIAL_LEN ++ (varint_enc 8 SPECIAL_LEN ++ R))) =
        (.ok (some SPECIAL_LEN), .base R)) ∧
    (∀ R : List Nat,
      readSeqLen (.base (varint_enc 8 SPECIAL_LEN ++ (varint_enc 8 UNKNOWN_LEN ++ R))) =
        (.ok none, DStack.startSkippable (.base R))) ∧
    (∀ (m : Nat) (R : List Nat), m < 2 ^ 64 → m ≠ SPECIAL_LEN → m ≠ UNKNOWN_LEN →
      readSeqLen (.base (varint_enc 8 SPECIAL_LEN ++ (varint_enc 8 m ++ R))) =
        (.error .badLen, .base R)) := by
  have h64 : (8 : Nat) * 8 % 7 ≠ 0 := by norm_num
  have h125 : (125 : Nat) < 2 ^ 64 := by norm_num
  have h0 : (0 : Nat) < 2 ^ 64 := by norm_num
  refine ⟨?_, ?_, ?_, ?_, ?_, ?_, ?_⟩
  · intro n o hn
    simp [serSeqLen, if_neg hn, writeUsize, write_wbase]
  · intro o
    simp [serSeqLen, SPECIAL_LEN, writeUsize, write_wbase]
  · intro o
    simp [serSeqLen, writeUsize, write_wbase, WStack.startSkippableW]
  · intro n R hn hne
    have h1 := readVarint_enc h64 n R hn
    simp only [readSeqLen, readUsize]
    rw [h1]
    simp [if_neg hne]
  · intro R
    have h1 := readVarint_enc h64 125 (varint_enc 8 125 ++ R) h125
    have h2 := readVarint_enc h64 125 R h125
    simp only [readSeqLen, readUsize, SPECIAL_LEN]
    rw [h1]
    simp only [if_pos rfl]
    rw [h2]
    simp
  · intro R
    have h1 := readVarint_enc h64 125 (varint_enc 8 0 ++ R) h125
    have h2 := readVarint_enc h64 0 R h0
    simp only [readSeqLen, readUsize, SPECIAL_LEN, UNKNOWN_LEN]
    rw [h1]
    simp only [if_pos rfl]
    rw [h2]
    simp [DStack.startSkippable]
  · intro m R hm hm125 hm0
    have h1 := readVarint_enc h64 125 (varint_enc 8 m ++ R) h125
    have h2 := readVarint_enc h64 m R hm
    simp only [readSeqLen, readUsize, SPECIAL_LEN, UNKNOWN_LEN]
    rw [h1]
    simp only [SPECIAL_LEN] at hm125
    simp only [UNKNOWN_LEN] at hm0
    simp [h2, hm125, hm0]

/-- Witness for C3: length 7, length 125, unknown length, and the bad
second marker 3. -/
theorem c3_length_marker_multiplexing_witness :
    serSeqLen (some 7) (.wbase []) = .wbase ([] ++ varint_enc 8 7) ∧
    readSeqLen (.base (varint_enc 8 7 ++ [9])) = (.ok (some 7), .base [9]) ∧
    readSeqLen (.base (varint_enc 8 SPECIAL_LEN ++ (varint_enc 8 SPECIAL_LEN ++ [9]))) =
      (.ok (some SPECIAL_LEN), .base [9]) ∧
    readSeqLen (.base (varint_enc 8 SPECIAL_LEN ++ (varint_enc 8 UNKNOWN_LEN ++ [9]))) =
      (.ok none, DStack.startSkippable (.base [9])) ∧
    readSeqLen (.base (varint_enc 8 SPECIAL_LEN ++ (varint_enc 8 3 ++ [9]))) =
      (.error .badLen, .base [9]) :=
  ⟨c3_length_marker_multiplexing.1 7 [] (by decide),
   c3_length_marker_multiplexing.2.2.2.1 7 [9] (by norm_num) (by decide),
   c3_length_marker_multiplexing.2.2.2.2.1 [9],
   c3_length_marker_multiplexing.2.2.2.2.2.1 [9],
   c3_length_marker_multiplexing.2.2.2.2.2.2 3 [9] (by norm_num) (by decide) (by decide)⟩

end Postbag

namespace Postbag

/-! ## Identifier codec (C7) -/

theorem idNum_underscore : ∀ n : Nat, n < ID_COUNT → idNum (underscoreName n) = some n := by
  decide

theorem idNum_eq_some {name : List Nat} {n : Nat} (h : idNum name = some n) :
    name = underscoreName n := by
  have hp := List.find?_some h
  simpa using hp

theorem underscoreName_length (n : Nat) : (underscoreName n).length ≤ 3 := by
  simp only [underscoreName, decimalDigits]
  split <;> simp

/-- Decoding an identifier encoding from the base stream returns the name. -/
theorem read_identifier_enc (name : List Nat) (R : List Nat)
    (hlen : name.length < 2 ^ 64) (hutf : utf8Valid name = true) :
    read_identifier (.base (encode_identifier name ++ R)) = (.ok name, .base R) := by
  have h64 : (8 : Nat) * 8 % 7 ≠ 0 := by norm_num
  match hid : idNum name with
  | some n =>
    have hn : n < ID_COUNT := by
      have hmem := List.mem_of_find?_eq_some hid
      exact List.mem_range.mp hmem
    have hname := idNum_eq_some hid
    have hv : ID_LEN_NAME + n < 2 ^ 64 := by
      simp only [ID_LEN_NAME, ID_COUNT] at *
      omega
    have h1 := readVarint_enc h64 (ID_LEN_NAME + n) R hv
    simp only [encode_identifier, hid]
    simp only [read_identifier, readUsize]
    rw [h1]
    have hc1 : ¬(ID_LEN_NAME + ID_COUNT ≤ ID_LEN_NAME + n) := by
      simp only [ID_LEN_NAME, ID_COUNT] at *
      omega
    have hc2 : ID_LEN_NAME ≤ ID_LEN_NAME + n := by omega
    simp [hc1, hc2, hname, Nat.add_sub_cancel_left]
  | none =>
    by_cases hshort : name.length < ID_LEN
    · have h1 := readVarint_enc h64 name.length (name ++ R) (by omega)
      simp only [encode_identifier, hid, if_pos hshort]
      simp only [read_identifier, readUsize]
      rw [List.append_assoc, h1]
      have hc1 : ¬(ID_LEN_NAME + ID_COUNT ≤ name.length) := by
        simp only [ID_LEN_NAME, ID_COUNT, ID_LEN] at *
        omega
      have hc2 : ¬(ID_LEN_NAME ≤ name.length) := by
        simp only [ID_LEN_NAME, ID_LEN] at *
        omega
      have hc3 : name.length ≠ ID_LEN := by omega
      have htake : DStack.takeN (.base (name ++ R)) name.length =
          (.ok name, .base R) := by
        rw [takeN_base]
        simp [DStack.baseTake, List.take_append_of_le_length (Nat.le_refl _),
          List.drop_append_of_le_length (Nat.le_refl _)]
      simp [hc1, hc2, hc3, htake, hutf]
    · have hIDlt : ID_LEN < 2 ^ 64 := by norm_num [ID_LEN]
      have h1 := readVarint_enc h64 ID_LEN (varint_enc 8 name.length ++ (name ++ R)) hIDlt
      have h2 := readVarint_enc h64 name.length (name ++ R) hlen
      simp only [encode_identifier, hid, if_neg hshort]
      simp only [read_identifier, readUsize]
      rw [List.append_assoc, List.append_assoc, h1]
      have hc1 : ¬(ID_LEN_NAME + ID_COUNT ≤ ID_LEN) := by decide
      have hc2 : ¬(ID_LEN_NAME ≤ ID_LEN) := by decide
      have htake : DStack.takeN (.base (name ++ R)) name.length =
          (.ok name, .base R) := by
        rw [takeN_base]
        simp [DStack.baseTake, List.take_append_of_le_length (Nat.le_refl _),
          List.drop_append_of_le_length (Nat.le_refl _)]
      simp [hc1, hc2, h2, htake, hutf]

/-- C7: Identifier codec: a name `_N` with `N < ID_COUNT = 60` is encoded
as the single varint `ID_LEN_NAME + N = 65 + N` and decodes back to the
same name; a name shorter than `ID_LEN = 64` is encoded as its length then
its UTF-8 bytes; a name of length at least 64 is encoded as the marker 64,
the actual length, then the bytes; all three round-trip; decoding fails
with `BadIdentifier` for every first varint of at least
`ID_LEN_NAME + ID_COUNT = 125`, and for name bytes that are not valid
UTF-8. -/
theorem c7_identifier_codec :
    (∀ n : Nat, n < ID_COUNT →
      encode_identifier (underscoreName n) = varint_enc 8 (ID_LEN_NAME + n)) ∧
    (∀ name : List Nat, idNum name = none → name.length < ID_LEN →
      encode_identifier name = varint_enc 8 name.length ++ name) ∧
    (∀ name : List Nat, idNum name = none → ID_LEN ≤ name.length →
      encode_identifier name =
        varint_enc 8 ID_LEN ++ varint_enc 8 name.length ++ name) ∧
    (∀ (name R : List Nat), name.length < 2 ^ 64 → utf8Valid name = true →
      read_identifier (.base (encode_identifier name ++ R)) = (.ok name, .base R)) ∧
    (∀ (v : Nat) (R : List Nat), ID_LEN_NAME + ID_COUNT ≤ v → v < 2 ^ 64 →
      read_identifier (.base (varint_enc 8 v ++ R)) = (.error .badIdentifier, .base R)) ∧
    (∀ (bytes R : List Nat), utf8Valid bytes = false → bytes.length < ID_LEN →
      read_identifier (.base (varint_enc 8 bytes.length ++ (bytes ++ R))) =
        (.error .badIdentifier, .base R)) := by
  have h64 : (8 : Nat) * 8 % 7 ≠ 0 := by norm_num
  refine ⟨?_, ?_, ?_, ?_, ?_, ?_⟩
  · intro n hn
    simp [encode_identifier, idNum_underscore n hn]
  · intro name hid hshort
    simp [encode_identifier, hid, if_pos hshort]
  · intro name hid hlong
    simp [encode_identifier, hid, if_neg (by omega : ¬(name.length < ID_LEN))]
  · intro name R hlen hutf
    exact read_identifier_enc name R hlen hutf
  · intro v R hv hvlt
    have h1 := readVarint_enc h64 v R hvlt
    simp only [read_identifier, readUsize]
    rw [h1]
    simp [hv]
  · intro bytes R hutf hshort
    have hlen : bytes.length < 2 ^ 64 := by
      simp only [ID_LEN] at hshort
      omega
    have h1 := readVarint_enc h64 bytes.length (bytes ++ R) hlen
    simp only [read_identifier, readUsize]
    rw [h1]
    have hc1 : ¬(ID_LEN_NAME + ID_COUNT ≤ bytes.length) := by
      simp only [ID_LEN_NAME, ID_COUNT, ID_LEN] at *
      omega
    have hc2 : ¬(ID_LEN_NAME ≤ bytes.length) := by
      simp only [ID_LEN_NAME, ID_LEN] at *
      omega
    have hc3 : bytes.length ≠ ID_LEN := by omega
    have htake : DStack.takeN (.base (bytes ++ R)) bytes.length = (.ok bytes, .base R) := by
      rw [takeN_base]
      simp [DStack.baseTake, List.take_append_of_le_length (Nat.le_refl _),
        List.drop_append_of_le_length (Nat.le_refl _)]
    simp [hc1, hc2, hc3, htake, hutf]

/-- Witness for C7: the compact name `_3`, a short name, a long name, the
out-of-range marker 125, and the invalid UTF-8 byte `0xFF`. -/
theorem c7_identifier_codec_witness :
    encode_identifier (underscoreName 3) = varint_enc 8 (ID_LEN_NAME + 3) ∧
    read_identifier (.base (encode_identifier (underscoreName 3) ++ [9])) =
      (.ok (underscoreName 3), .base [9]) ∧
    read_identifier (.base (encode_identifier [104, 105] ++ [9])) =
      (.ok [104, 105], .base [9]) ∧
    read_identifier (.base (encode_identifier (List.replicate 70 97) ++ [9])) =
      (.ok (List.replicate 70 97), .base [9]) ∧
    read_identifier (.base (varint_enc 8 125 ++ [9])) = (.error .badIdentifier, .base [9]) ∧
    read_identifier (.base (varint_enc 8 1 ++ ([255] ++ [9]))) =
      (.error .badIdentifier, .base [9]) :=
  ⟨c7_identifier_codec.1 3 (by decide),
   c7_identifier_codec.2.2.2.1 (underscoreName 3) [9] (by decide) (by decide),
   c7_identifier_codec.2.2.2.1 [104, 105] [9] (by decide) (by decide),
   c7_identifier_codec.2.2.2.1 (List.replicate 70 97) [9] (by decide) (by decide),
   c7_identifier_codec.2.2.2.2.1 125 [9] (by decide) (by norm_num),
   by
     have h := c7_identifier_codec.2.2.2.2.2 [255] [9] (by decide) (by decide)
     simpa using h⟩

end Postbag

namespace Postbag

/-! ## Skippable-block stream correspondence -/

/-- Chunk-stream well-formedness: `Chunks B D T` — the bytes `B` begin at a
chunk-length header and parse as a chunk sequence holding the data `D`,
followed by the bytes `T` of the outer stream: zero or more full
`MAX_LEN`-sized chunks, then a terminal chunk shorter than `MAX_LEN`. -/
inductive Chunks : List Nat → List Nat → List Nat → Prop where
  | term (D T : List Nat) (h : D.length < MAX_LEN) :
      Chunks (varint_enc 2 D.length ++ (D ++ T)) D T
  | more (C D T B : List Nat) (hC : C.length = MAX_LEN) (h : Chunks B D T) :
      Chunks (varint_enc 2 MAX_LEN ++ (C ++ B)) (C ++ D) T

/-- Decoder-state correspondence: `Offers s D T` — the state `s` yields
exactly the bytes `D` before the end of the innermost skippable block (or,
for a base state, before the suffix `T`), and after draining the block the
underlying reader stands at `T`. -/
inductive Offers : DStack → List Nat → List Nat → Prop where
  | ofBase (D T : List Nat) : Offers (.base (D ++ T)) D T
  | last (D T : List Nat) : Offers (.block (.base (D ++ T)) D.length false) D T
  | mid (D1 D2 T B : List Nat) (h : Chunks B D2 T) :
      Offers (.block (.base (D1 ++ B)) D1.length true) (D1 ++ D2) T

/-- Variant of `readVarint_enc` parameterised by the byte-popping function,
as the chunk-header reads of the skip stack pop through the inner stack. -/
theorem rvLoop_enc_base {tk : DStack → Nat → (Except Err (List Nat)) × DStack}
    (Htk : ∀ bs n, tk (.base bs) n = DStack.baseTake bs n)
    {nb : Nat} (hnb7 : 8 * nb % 7 ≠ 0) (v : Nat) (R : List Nat)
    (hv : v < 2 ^ (8 * nb)) :
    DStack.rvLoop tk nb (varint_max nb) 0 0 (.base (varint_enc nb v ++ R)) =
      (.ok v, .base R) := by
  have hnb : 1 ≤ nb := by by_contra h; simp [show nb = 0 by omega] at hnb7
  obtain ⟨s2, heq, hP⟩ := @rvLoop_gen tk
    (fun s D => s = .base (D ++ R))
    (fun s b D hP => by
      subst hP
      refine ⟨.base (D ++ R), ?_, rfl⟩
      rw [Htk]
      simp [DStack.baseTake])
    nb hnb7 (varint_max nb) 0 0 v (.base (varint_enc nb v ++ R)) (by omega)
    (varint_max_pos hnb) (by simpa using hv) (by norm_num) rfl
  subst hP
  simpa [varint_enc] using heq

theorem MAX_LEN_lt_u16 : MAX_LEN < 2 ^ (8 * 2) := by norm_num [MAX_LEN]

/-- Inversion of `Chunks`. -/
theorem Chunks.inv {B D T : List Nat} (h : Chunks B D T) :
    (D.length < MAX_LEN ∧ B = varint_enc 2 D.length ++ (D ++ T)) ∨
    (∃ C D2 B2, C.length = MAX_LEN ∧ D = C ++ D2 ∧
      B = varint_enc 2 MAX_LEN ++ (C ++ B2) ∧ Chunks B2 D2 T) := by
  match h with
  | .term Dx Tx hlt => exact Or.inl ⟨hlt, rfl⟩
  | .more C Dx Tx B2 hC h2 => exact Or.inr ⟨C, Dx, B2, hC, rfl, rfl, h2⟩

/-- Inversion of `Offers` at a depth-one block state. -/
theorem Offers.invBlock {B : List Nat} {rem : Nat} {hn : Bool} {D T : List Nat}
    (h : Offers (.block (.base B) rem hn) D T) :
    (hn = false ∧ rem = D.length ∧ B = D ++ T) ∨
    (hn = true ∧ ∃ D1 D2 B2, D = D1 ++ D2 ∧ rem = D1.length ∧
      B = D1 ++ B2 ∧ Chunks B2 D2 T) := by
  match h with
  | .last Dx Tx => exact Or.inl ⟨rfl, rfl, rfl⟩
  | .mid D1 D2 Tx B2 hch => exact Or.inr ⟨rfl, D1, D2, B2, rfl, rfl, rfl, hch⟩

/-- Inversion of `Offers` at a base state. -/
theorem Offers.invBase {bs D T : List Nat} (h : Offers (.base bs) D T) : bs = D ++ T := by
  match h with
  | .ofBase Dx Tx => rfl

/-- `update_remaining` on a state in correspondence: succeeds, preserves
the correspondence, and afterwards the chunk availability is current — the
remaining count is positive unless the block is exhausted. -/
theorem updateRem_offers {tk : DStack → Nat → (Except Err (List Nat)) × DStack}
    (Htk : ∀ bs n, tk (.base bs) n = DStack.baseTake bs n)
    {B : List Nat} {rem : Nat} {hn : Bool} {D T : List Nat}
    (hO : Offers (.block (.base B) rem hn) D T) :
    ∃ B1 rem1 hn1, DStack.updateRem tk (.base B) rem hn = (.ok (), .base B1, rem1, hn1) ∧
      Offers (.block (.base B1) rem1 hn1) D T ∧ (0 < rem1 ∨ hn1 = false) ∧
      (rem1 = 0 → D = []) ∧ rem1 ≤ D.length ∧ B1.length ≤ B.length := by
  have h16 : (8 : Nat) * 2 % 7 ≠ 0 := by norm_num
  rcases hO.invBlock with ⟨hhn, hrem, hB⟩ | ⟨hhn, D1, D2, B2, hD, hrem, hB, hch⟩
  · subst hhn hrem hB
    refine ⟨D ++ T, D.length, false, ?_, Offers.last D T, Or.inr rfl, ?_, le_refl _, le_refl _⟩
    · simp [DStack.updateRem]
    · intro h
      exact List.eq_nil_of_length_eq_zero h
  · subst hhn hrem hB hD
    by_cases hD1 : D1 = []
    · subst hD1
      rcases hch.inv with ⟨hlt, hB2⟩ | ⟨C, D3, B3, hC, hD2, hB2, hch3⟩
      · subst hB2
        have hhdr := rvLoop_enc_base Htk h16 D2.length (D2 ++ T)
          (lt_trans hlt MAX_LEN_lt_u16)
        refine ⟨D2 ++ T, D2.length, false, ?_, ?_, Or.inr rfl, ?_, ?_, ?_⟩
        · simp only [DStack.updateRem, List.length_nil, List.nil_append]
          rw [if_neg (by simp)]
          rw [hhdr]
          simp [Nat.ne_of_lt hlt]
        · simpa using Offers.last D2 T
        · intro h
          simpa using List.eq_nil_of_length_eq_zero h
        · simp
        · simp only [List.length_append, List.nil_append, List.length_nil]
          omega
      · subst hB2 hD2
        have hhdr := rvLoop_enc_base Htk h16 MAX_LEN (C ++ B3) MAX_LEN_lt_u16
        refine ⟨C ++ B3, C.length, true, ?_, ?_, ?_, ?_, ?_, ?_⟩
        · simp only [DStack.updateRem, List.length_nil, List.nil_append]
          rw [if_neg (by simp)]
          rw [hhdr]
          simp [hC]
        · simpa using Offers.mid C D3 T B3 hch3
        · exact Or.inl (by rw [hC]; norm_num [MAX_LEN])
        · intro h
          rw [hC] at h
          norm_num [MAX_LEN] at h
        · simp
        · simp only [List.length_append, List.nil_append, List.length_nil]
          omega
    · have hpos : 0 < D1.length := List.length_pos.mpr hD1
      refine ⟨D1 ++ B2, D1.length, true, ?_, Offers.mid D1 D2 T B2 hch, Or.inl hpos, ?_, ?_,
        le_refl _⟩
      · simp [DStack.updateRem, Or.inl hpos]
      · omega
      · simp

/-- Serving a read from the current chunk: the first `remaining` bytes of
the inner base stream are data bytes. -/
theorem fast_take_offers {B1 : List Nat} {rem1 : Nat} {hn1 : Bool} {D T : List Nat}
    (hO : Offers (.block (.base B1) rem1 hn1) D T) {ct : Nat} (hct : ct ≤ rem1) :
    DStack.baseTake B1 ct = (.ok (D.take ct), .base (B1.drop ct)) ∧
      Offers (.block (.base (B1.drop ct)) (rem1 - ct) hn1) (D.drop ct) T := by
  rcases hO.invBlock with ⟨hhn, hrem, hB⟩ | ⟨hhn, D1, D2, B2, hD, hrem, hB, hch⟩
  · subst hhn hrem hB
    constructor
    · simp only [DStack.baseTake]
      rw [if_pos (by simp; omega)]
      rw [List.take_append_of_le_length hct]
    · rw [List.drop_append_of_le_length hct]
      have h : D.length - ct = (D.drop ct).length := by simp
      rw [h]
      exact Offers.last _ _
  · subst hhn hrem hB hD
    constructor
    · simp only [DStack.baseTake]
      rw [if_pos (by simp; omega)]
      rw [List.take_append_of_le_length hct, List.take_append_of_le_length hct]
    · rw [List.drop_append_of_le_length hct, List.drop_append_of_le_length hct]
      have h : D1.length - ct = (D1.drop ct).length := by simp
      rw [h]
      exact Offers.mid _ _ _ _ hch

end Postbag

namespace Postbag

theorem blockLoop_zero {tk : DStack → Nat → (Except Err (List Nat)) × DStack}
    (f : Nat) (inner : DStack) (rem : Nat) (hn : Bool) (acc : List Nat) :
    DStack.blockLoop tk f inner rem hn 0 acc = (.ok acc, .block inner rem hn) := by
  cases f <;> simp [DStack.blockLoop]

/-- The chunk loop serves any in-range positive read, gathering bytes
across chunk boundaries. -/
theorem blockLoop_offers {tk : DStack → Nat → (Except Err (List Nat)) × DStack}
    (Htk : ∀ bs n, tk (.base bs) n = DStack.baseTake bs n) :
    ∀ (fuel ct : Nat) (acc B : List Nat) (rem : Nat) (hn : Bool) (D T : List Nat),
      Offers (.block (.base B) rem hn) D T → 0 < ct → ct ≤ D.length → ct ≤ fuel →
      ∃ B2 rem2 hn2, DStack.blockLoop tk fuel (.base B) rem hn ct acc =
        (.ok (acc ++ D.take ct), .block (.base B2) rem2 hn2) ∧
        Offers (.block (.base B2) rem2 hn2) (D.drop ct) T := by
  intro fuel
  induction fuel with
  | zero =>
    intro ct acc B rem hn D T hO hpos hle hfuel
    omega
  | succ f ih =>
    intro ct acc B rem hn D T hO hpos hle hfuel
    obtain ⟨B1, rem1, hn1, hupd, hO1, hcur, hzero, hrle, hBle⟩ := updateRem_offers Htk hO
    have hD : D ≠ [] := by
      intro h
      subst h
      simp at hle
      omega
    have hrem1 : 0 < rem1 := by
      rcases Nat.eq_zero_or_pos rem1 with h | h
      · exact absurd (hzero h) hD
      · exact h
    rw [DStack.blockLoop, if_neg (by omega)]
    simp only [hupd]
    rw [if_neg (by omega)]
    have hmin : min ct rem1 ≤ rem1 := Nat.min_le_right _ _
    obtain ⟨hfast, hO2⟩ := fast_take_offers hO1 hmin
    rw [Htk, hfast]
    by_cases hcase : ct ≤ rem1
    · have hminct : min ct rem1 = ct := Nat.min_eq_left hcase
      rw [hminct] at hO2 ⊢
      refine ⟨B1.drop ct, rem1 - ct, hn1, ?_, hO2⟩
      rw [Nat.sub_self]
      exact blockLoop_zero _ _ _ _ _
    · have hminct : min ct rem1 = rem1 := Nat.min_eq_right (by omega)
      rw [hminct] at hO2 ⊢
      obtain ⟨B2, rem2, hn2, hloop, hO3⟩ := ih (ct - rem1) (acc ++ D.take rem1)
        (B1.drop rem1) (rem1 - rem1) hn1 (D.drop rem1) T hO2 (by omega)
        (by simp; omega) (by omega)
      refine ⟨B2, rem2, hn2, ?_, ?_⟩
      · simp only [hloop]
        congr 2
        rw [List.append_assoc]
        congr 1
        rw [← List.take_add]
        congr 1
        omega
      · rw [List.drop_drop] at hO3
        have harith : rem1 + (ct - rem1) = ct := by omega
        rwa [harith] at hO3

theorem depth_block (inner : DStack) (rem : Nat) (hn : Bool) :
    (DStack.block inner rem hn).depth = inner.depth + 1 := rfl

/-- Reading through the skip stack from a state in correspondence: any
in-range read yields exactly the data bytes, preserving the
correspondence and the stack shape. -/
theorem takeN_offers {s : DStack} {D T : List Nat} (hO : Offers s D T) {ct : Nat}
    (hct : ct ≤ D.length) :
    ∃ s2, s.takeN ct = (.ok (D.take ct), s2) ∧ Offers s2 (D.drop ct) T ∧
      s2.depth = s.depth := by
  match s, hO with
  | .base bs, hO =>
    have hbs := hO.invBase
    subst hbs
    refine ⟨.base (D.drop ct ++ T), ?_, Offers.ofBase _ _, rfl⟩
    rw [takeN_base]
    simp only [DStack.baseTake]
    rw [if_pos (by simp; omega)]
    rw [List.take_append_of_le_length hct, List.drop_append_of_le_length hct]
  | .block inner rem hn, hO =>
    obtain ⟨B, rem0, hn0, heq⟩ : ∃ B rem0 hn0, DStack.block inner rem hn =
        .block (.base B) rem0 hn0 := by
      match hO with
      | .last Dx Tx => exact ⟨_, _, _, rfl⟩
      | .mid D1 D2 Tx B2 hch => exact ⟨_, _, _, rfl⟩
    rw [heq] at hO ⊢
    have htk0 : ∀ bs n, DStack.takeND 0 (.base bs) n = DStack.baseTake bs n := fun _ _ => rfl
    obtain ⟨B1, rem1, hn1, hupd, hO1, hcur, hzero, hrle, hBle⟩ := updateRem_offers htk0 hO
    show ∃ s2, DStack.blockTake (DStack.takeND 0) (.base B) rem0 hn0 ct = _ ∧ _
    rw [DStack.blockTake]
    simp only [hupd]
    by_cases hcase : ct ≤ rem1
    · rw [if_pos hcase]
      obtain ⟨hfast, hO2⟩ := fast_take_offers hO1 hcase
      rw [htk0, hfast]
      exact ⟨.block (.base (B1.drop ct)) (rem1 - ct) hn1, rfl, hO2, rfl⟩
    · rw [if_neg hcase]
      obtain ⟨B2, rem2, hn2, hloop, hO3⟩ := blockLoop_offers htk0 ct ct [] B1 rem1 hn1 D T
        hO1 (by omega) hct (le_refl _)
      refine ⟨.block (.base B2) rem2 hn2, ?_, hO3, rfl⟩
      rw [hloop]
      simp

/-- Reading from an exhausted block fails with `EndOfBlock`, leaving the
block drained but still open. -/
theorem takeN_exhausted {B : List Nat} {rem : Nat} {hn : Bool} {T : List Nat}
    (hO : Offers (.block (.base B) rem hn) [] T) {ct : Nat} (hct : 0 < ct) :
    ∃ B2 rem2 hn2, (DStack.block (.base B) rem hn).takeN ct =
      (.error .endOfBlock, .block (.base B2) rem2 hn2) ∧
      Offers (.block (.base B2) rem2 hn2) [] T := by
  have htk0 : ∀ bs n, DStack.takeND 0 (.base bs) n = DStack.baseTake bs n := fun _ _ => rfl
  obtain ⟨B1, rem1, hn1, hupd, hO1, hcur, hzero, hrle, hBle⟩ := updateRem_offers htk0 hO
  have hrem1 : rem1 = 0 := by simpa using hrle
  subst hrem1
  have hhn1 : hn1 = false := by
    rcases hcur with h | h
    · omega
    · exact h
  subst hhn1
  show ∃ B2 rem2 hn2, DStack.blockTake (DStack.takeND 0) (.base B) rem hn ct = _ ∧ _
  rw [DStack.blockTake]
  simp only [hupd]
  rw [if_neg (by omega)]
  match ct, hct with
  | c + 1, _ =>
    rw [DStack.blockLoop, if_neg (by omega)]
    have hnoop : DStack.updateRem (DStack.takeND 0) (.base B1) 0 false =
        (.ok (), .base B1, 0, false) := by
      simp [DStack.updateRem]
    simp only [hnoop]
    refine ⟨B1, 0, false, ?_, hO1⟩
    simp

/-- The drain loop of `finish` reads and discards the rest of the block
through the terminal chunk, leaving the underlying reader at the trailing
stream. -/
theorem finLoop_offers :
    ∀ (fuel : Nat) (B : List Nat) (rem : Nat) (hn : Bool) (D T : List Nat),
      Offers (.block (.base B) rem hn) D T → B.length < fuel →
      DStack.finLoop fuel (.base B) rem hn = (.ok (), .base T) := by
  intro fuel
  induction fuel with
  | zero =>
    intro B rem hn D T hO hlt
    omega
  | succ f ih =>
    intro B rem hn D T hO hlt
    obtain ⟨B1, rem1, hn1, hupd, hO1, hcur, hzero, hrle, hBle⟩ :=
      updateRem_offers takeN_base hO
    rw [DStack.finLoop]
    simp only [hupd]
    by_cases h0 : 0 < rem1
    · rw [if_pos h0]
      obtain ⟨hfast, hO2⟩ := fast_take_offers hO1 (le_refl rem1)
      rw [takeN_base, hfast]
      rw [Nat.sub_self] at hO2
      have hr1 : rem1 ≤ B1.length := by
        rcases hO1.invBlock with ⟨h1, h2, h3⟩ | ⟨h1, D1, D2, B2, h2, h3, h4, h5⟩
        · subst h2 h3
          simp only [List.length_append]
          omega
        · subst h3 h4
          simp only [List.length_append]
          omega
      have hlen : (B1.drop rem1).length < f := by
        have h1 : (B1.drop rem1).length = B1.length - rem1 := by simp
        omega
      exact ih (B1.drop rem1) 0 hn1 (D.drop rem1) T hO2 hlen
    · rw [if_neg h0]
      have hrem1 : rem1 = 0 := by omega
      subst hrem1
      have hD : D = [] := hzero rfl
      subst hD
      have hhn1 : hn1 = false := by
        rcases hcur with h | h
        · omega
        · exact h
      subst hhn1
      rcases hO1.invBlock with ⟨_, _, hB⟩ | ⟨hc, _⟩
      · simp at hB
        rw [hB]
      · exact absurd hc (by simp)

/-- `end_skippable` on a block in correspondence drains it and leaves the
reader exactly at the trailing stream. -/
theorem endSkippable_offers {B : List Nat} {rem : Nat} {hn : Bool} {D T : List Nat}
    (hO : Offers (.block (.base B) rem hn) D T) :
    DStack.endSkippable (.block (.base B) rem hn) = (.ok (), .base T) := by
  show DStack.finLoop ((DStack.base B).sizeB + 1) (.base B) rem hn = _
  exact finLoop_offers _ B rem hn D T hO (by simp [DStack.sizeB])

/-- A state in correspondence at depth one is an open block over the base
reader. -/
theorem Offers.block_shape {s : DStack} {D T : List Nat} (h : Offers s D T)
    (hd : s.depth = 1) : ∃ B rem hn, s = .block (.base B) rem hn := by
  match s, h with
  | .base bs, h => simp [DStack.depth] at hd
  | .block (.base B) rem hn, h => exact ⟨B, rem, hn, rfl⟩

/-- Decoding a varint whose encoding heads the offered data of any state in
correspondence. -/
theorem readVarint_offers {nb : Nat} (hnb7 : 8 * nb % 7 ≠ 0) {s : DStack}
    {D T : List Nat} {v : Nat} (hO : Offers s (varint_enc nb v ++ D) T)
    (hv : v < 2 ^ (8 * nb)) :
    ∃ s2, readVarint nb s = (.ok v, s2) ∧ Offers s2 D T ∧ s2.depth = s.depth := by
  have hnb : 1 ≤ nb := by by_contra h; simp [show nb = 0 by omega] at hnb7
  obtain ⟨s2, heq, hP⟩ := @rvLoop_gen DStack.takeN
    (fun s1 Dv => Offers s1 (Dv ++ D) T ∧ s1.depth = s.depth)
    (fun s1 b Dv hP => by
      obtain ⟨hO1, hd1⟩ := hP
      obtain ⟨s3, htake, hO3, hd3⟩ := takeN_offers hO1 (show 1 ≤ (b :: Dv ++ D).length by simp)
      refine ⟨s3, ?_, ?_, by omega⟩
      · rw [htake]
        rfl
      · simpa using hO3)
    nb hnb7 (varint_max nb) 0 0 v s (by omega) (varint_max_pos hnb)
    (by simpa using hv) (by norm_num) ⟨by simpa [varint_enc] using hO, rfl⟩
  exact ⟨s2, by simpa [readVarint] using heq, by simpa using hP.1, hP.2⟩

/-- Decoding any varint from an exhausted block fails with `EndOfBlock`. -/
theorem readVarint_exhausted {nb : Nat} (hnb : 1 ≤ nb) {B : List Nat} {rem : Nat}
    {hn : Bool} {T : List Nat} (hO : Offers (.block (.base B) rem hn) [] T) :
    ∃ B2 rem2 hn2, readVarint nb (.block (.base B) rem hn) =
      (.error .endOfBlock, .block (.base B2) rem2 hn2) ∧
      Offers (.block (.base B2) rem2 hn2) [] T := by
  obtain ⟨B2, rem2, hn2, htake, hO2⟩ := takeN_exhausted hO (show 0 < 1 by omega)
  refine ⟨B2, rem2, hn2, ?_, hO2⟩
  have hm := varint_max_pos hnb
  match hvm : varint_max nb, hm with
  | m + 1, _ =>
    simp only [readVarint, hvm]
    rw [DStack.rvLoop, htake]

end Postbag

namespace Postbag

/-! ## Encoder closed form -/

/-- The full chunks the encode-side flush loop emits for a buffer `b`. -/
def fullPart : Nat → List Nat → List Nat
  | 0, _ => []
  | fuel + 1, b =>
    if MAX_LEN ≤ b.length then
      varint_enc 2 MAX_LEN ++ b.take MAX_LEN ++ fullPart fuel (b.drop MAX_LEN)
    else []

/-- The buffer remainder the encode-side flush loop keeps. -/
def remPart : Nat → List Nat → List Nat
  | 0, b => b
  | fuel + 1, b => if MAX_LEN ≤ b.length then remPart fuel (b.drop MAX_LEN) else b

theorem remPart_length_le : ∀ (fuel : Nat) (b : List Nat), (remPart fuel b).length ≤ b.length := by
  intro fuel
  induction fuel with
  | zero => intro b; simp [remPart]
  | succ f ih =>
    intro b
    rw [remPart]
    split
    · calc (remPart f (b.drop MAX_LEN)).length ≤ (b.drop MAX_LEN).length := ih _
        _ ≤ b.length := by simp
    · exact le_refl _

theorem remPart_lt_max : ∀ (fuel : Nat) (b : List Nat), b.length ≤ fuel →
    (remPart fuel b).length < MAX_LEN := by
  intro fuel
  induction fuel with
  | zero =>
    intro b hb
    have : b = [] := List.eq_nil_of_length_eq_zero (by omega)
    subst this
    simp [remPart, MAX_LEN]
  | succ f ih =>
    intro b hb
    rw [remPart]
    split
    · refine ih _ ?_
      simp only [List.length_drop]
      have hM : (1 : Nat) ≤ MAX_LEN := by norm_num [MAX_LEN]
      omega
    · omega

theorem MAX_LEN_pos : 1 ≤ MAX_LEN := by norm_num [MAX_LEN]

theorem fullPart_stable : ∀ (f g : Nat) (b : List Nat), b.length ≤ f → b.length ≤ g →
    fullPart f b = fullPart g b ∧ remPart f b = remPart g b := by
  intro f
  induction f with
  | zero =>
    intro g b hf hg
    have hb : b = [] := List.eq_nil_of_length_eq_zero (by omega)
    subst hb
    cases g <;> simp [fullPart, remPart, MAX_LEN]
  | succ f ih =>
    intro g b hf hg
    have hM := MAX_LEN_pos
    by_cases hmax : MAX_LEN ≤ b.length
    · have hg1 : 1 ≤ g := by omega
      match g, hg1 with
      | g + 1, _ =>
        rw [fullPart, fullPart, remPart, remPart, if_pos hmax, if_pos hmax,
          if_pos hmax, if_pos hmax]
        have hlen : (b.drop MAX_LEN).length ≤ f := by
          simp only [List.length_drop]
          omega
        have hleng : (b.drop MAX_LEN).length ≤ g := by
          simp only [List.length_drop]
          omega
        obtain ⟨h1, h2⟩ := ih g (b.drop MAX_LEN) hlen hleng
        exact ⟨by rw [h1], h2⟩
    · constructor
      · rw [fullPart, if_neg hmax]
        cases g with
        | zero => simp [fullPart]
        | succ g => rw [fullPart, if_neg hmax]
      · rw [remPart, if_neg hmax]
        cases g with
        | zero => simp [remPart]
        | succ g => rw [remPart, if_neg hmax]

theorem fullPart_comp : ∀ (f : Nat) (b c : List Nat), b.length + c.length ≤ f →
    fullPart f (b ++ c) = fullPart f b ++ fullPart f (remPart f b ++ c) ∧
    remPart f (b ++ c) = remPart f (remPart f b ++ c) := by
  intro f
  induction f with
  | zero =>
    intro b c h
    have hb : b = [] := List.eq_nil_of_length_eq_zero (by omega)
    have hc : c = [] := List.eq_nil_of_length_eq_zero (by omega)
    subst hb hc
    simp [fullPart, remPart]
  | succ f ih =>
    intro b c h
    have hM := MAX_LEN_pos
    by_cases hmax : MAX_LEN ≤ b.length
    · have hbc : MAX_LEN ≤ (b ++ c).length := by simp; omega
      have htk : (b ++ c).take MAX_LEN = b.take MAX_LEN := List.take_append_of_le_length hmax
      have hdp : (b ++ c).drop MAX_LEN = b.drop MAX_LEN ++ c := List.drop_append_of_le_length hmax
      have hrec := ih (b.drop MAX_LEN) c (by simp only [List.length_drop]; omega)
      have hrem : remPart (f + 1) b = remPart f (b.drop MAX_LEN) := by
        rw [remPart, if_pos hmax]
      have hrlen : (remPart f (b.drop MAX_LEN) ++ c).length ≤ f := by
        have hle := remPart_length_le f (b.drop MAX_LEN)
        simp only [List.length_drop] at hle
        simp only [List.length_append]
        omega
      have hstab := fullPart_stable f (f + 1) (remPart f (b.drop MAX_LEN) ++ c) hrlen (by omega)
      constructor
      · rw [fullPart, if_pos hbc, htk, hdp, fullPart, if_pos hmax]
        rw [hrec.1, hrem, ← hstab.1]
        simp [List.append_assoc]
      · rw [remPart, if_pos hbc, hdp, hrem, hrec.2, ← hstab.2]
    · have hrb : remPart (f + 1) b = b := by rw [remPart, if_neg hmax]
      have hfb : fullPart (f + 1) b = [] := by rw [fullPart, if_neg hmax]
      rw [hrb, hfb, List.nil_append]
      exact ⟨rfl, rfl⟩

/-- The chunk stream decomposes into the full chunks and the terminal
chunk. -/
theorem chunksF_decomp : ∀ (fuel : Nat) (b : List Nat),
    chunksF fuel b = fullPart fuel b ++
      (varint_enc 2 (remPart fuel b).length ++ remPart fuel b) := by
  intro fuel
  induction fuel with
  | zero => intro b; simp [chunksF, fullPart, remPart]
  | succ f ih =>
    intro b
    by_cases hmax : MAX_LEN ≤ b.length
    · rw [chunksF, if_pos hmax, fullPart, if_pos hmax, remPart, if_pos hmax, ih]
      simp [List.append_assoc]
    · rw [chunksF, if_neg hmax, fullPart, if_neg hmax, remPart, if_neg hmax]
      simp

/-- The encoder's chunk stream is a well-formed chunk sequence. -/
theorem chunksF_chunks : ∀ (fuel : Nat) (D T : List Nat),
    D.length ≤ fuel * MAX_LEN + (MAX_LEN - 1) → Chunks (chunksF fuel D ++ T) D T := by
  intro fuel
  induction fuel with
  | zero =>
    intro D T h
    rw [chunksF]
    have hlt : D.length < MAX_LEN := by norm_num [MAX_LEN] at *; omega
    have := Chunks.term D T hlt
    simpa [List.append_assoc] using this
  | succ f ih =>
    intro D T h
    rw [chunksF]
    by_cases hmax : MAX_LEN ≤ D.length
    · rw [if_pos hmax]
      have htail := ih (D.drop MAX_LEN) T (by simp; norm_num [MAX_LEN] at *; omega)
      have hC : (D.take MAX_LEN).length = MAX_LEN := by
        rw [List.length_take]
        omega
      have := Chunks.more (D.take MAX_LEN) (D.drop MAX_LEN) T (chunksF f (D.drop MAX_LEN) ++ T)
        hC htail
      simpa [List.append_assoc, List.take_append_drop] using this
    · rw [if_neg hmax]
      have := Chunks.term D T (by omega)
      simpa [List.append_assoc] using this

theorem chunksOf_chunks (D T : List Nat) : Chunks (chunksOf D ++ T) D T := by
  apply chunksF_chunks
  have : (1 : Nat) ≤ MAX_LEN := by norm_num [MAX_LEN]
  rcases Nat.eq_zero_or_pos D.length with h | h
  · omega
  · have := Nat.le_mul_of_pos_right D.length (show 0 < MAX_LEN by omega)
    calc D.length ≤ D.length * MAX_LEN := by
          calc D.length = D.length * 1 := by omega
            _ ≤ D.length * MAX_LEN := Nat.mul_le_mul_left _ (by omega)
      _ ≤ D.length * MAX_LEN + (MAX_LEN - 1) := by omega

end Postbag

namespace Postbag

theorem fullPart_small (f : Nat) (b : List Nat) (h : b.length < MAX_LEN) :
    fullPart f b = [] := by
  cases f with
  | zero => rfl
  | succ f => rw [fullPart, if_neg (by omega)]

theorem remPart_small (f : Nat) (b : List Nat) (h : b.length < MAX_LEN) :
    remPart f b = b := by
  cases f with
  | zero => rfl
  | succ f => rw [remPart, if_neg (by omega)]

/-- The flush loop over a base writer emits exactly the full chunks and
keeps the remainder buffered. -/
theorem flushLoop_wbase {wrF : WStack → List Nat → WStack}
    (HwrF : ∀ o x, wrF (.wbase o) x = .wbase (o ++ x)) :
    ∀ (fuel : Nat) (o b : List Nat),
      WStack.flushLoop wrF fuel (.wbase o) b = (.wbase (o ++ fullPart fuel b), remPart fuel b) := by
  intro fuel
  induction fuel with
  | zero =>
    intro o b
    simp [WStack.flushLoop, fullPart, remPart]
  | succ f ih =>
    intro o b
    rw [WStack.flushLoop]
    by_cases hmax : MAX_LEN ≤ b.length
    · rw [if_pos hmax]
      have hlen : (b.take MAX_LEN).length = MAX_LEN := by
        rw [List.length_take]
        omega
      simp only [hlen, HwrF, ih]
      rw [fullPart, if_pos hmax, remPart, if_pos hmax]
      simp [List.append_assoc]
    · rw [if_neg hmax]
      rw [fullPart, if_neg hmax, remPart, if_neg hmax]
      simp

/-- `write` on a depth-one open block: append to the buffer, flush the full
chunks to the underlying writer, keep the remainder. -/
theorem write_block1 (o buf data : List Nat) :
    WStack.write (.wblock (.wbase o) buf) data =
      .wblock (.wbase (o ++ fullPart (buf ++ data).length (buf ++ data)))
        (remPart (buf ++ data).length (buf ++ data)) := by
  show WStack.writeND 1 _ _ = _
  rw [WStack.writeND]
  rw [flushLoop_wbase (fun _ _ => rfl)]

/-- `end_skippable` on a depth-one open block whose buffer is within
bounds: flush the buffer as the terminal chunk. -/
theorem endSkippableW_block1 (o buf : List Nat) (h : buf.length < MAX_LEN) :
    WStack.endSkippableW (.wblock (.wbase o) buf) =
      .ok (.wbase (o ++ (varint_enc 2 buf.length ++ buf))) := by
  rw [WStack.endSkippableW]
  rw [if_neg (by omega)]
  show Except.ok (WStack.write (WStack.write (.wbase o) _) _) = _
  rw [write_wbase, write_wbase]
  rw [List.append_assoc]

/-- Running a sequence of writes. -/
def runWrites (ws : List (List Nat)) (w : WStack) : WStack := ws.foldl WStack.write w

/-- A write sequence into an open depth-one block is equivalent to the
single write of its concatenation. -/
theorem runWrites_block1 : ∀ (ws : List (List Nat)) (o buf : List Nat),
    buf.length < MAX_LEN →
    runWrites ws (.wblock (.wbase o) buf) =
      .wblock (.wbase (o ++ fullPart (buf ++ ws.flatten).length (buf ++ ws.flatten)))
        (remPart (buf ++ ws.flatten).length (buf ++ ws.flatten)) := by
  intro ws
  induction ws with
  | nil =>
    intro o buf hbuf
    simp only [runWrites, List.foldl_nil, List.flatten_nil, List.append_nil]
    rw [fullPart_small _ _ hbuf, remPart_small _ _ hbuf]
    simp
  | cons d ws ih =>
    intro o buf hbuf
    have hstep := write_block1 o buf d
    show runWrites ws (WStack.write (.wblock (.wbase o) buf) d) = _
    rw [hstep]
    set bd := buf ++ d with hbd
    set n1 := bd.length with hn1
    have hr1 : (remPart n1 bd).length < MAX_LEN := remPart_lt_max n1 bd (le_refl _)
    rw [ih _ _ hr1]
    have hflat : buf ++ (d :: ws).flatten = bd ++ ws.flatten := by
      simp [hbd, List.flatten_cons, List.append_assoc]
    rw [hflat]
    set F := ws.flatten with hF
    set f := bd.length + F.length with hf
    have hcomp := fullPart_comp f bd F (le_refl _)
    have hs1 := fullPart_stable f n1 bd (by omega) (le_refl _)
    have hs2 : (remPart n1 bd ++ F).length ≤ f := by
      have := remPart_length_le n1 bd
      simp only [List.length_append]
      omega
    have hs3 := fullPart_stable f (remPart n1 bd ++ F).length (remPart n1 bd ++ F) hs2 (le_refl _)
    have hN : (bd ++ F).length = f := by simp [List.length_append]
    rw [hN]
    rw [hcomp.1, hcomp.2, hs1.1, hs1.2, hs3.1, hs3.2]
    simp [List.append_assoc]

/-- C5: Skip-block chunk format: inside a skippable block the encoder
chunks all written bytes into records `[chunk length][bytes]`; whenever
`0xFFFF` bytes have accumulated they are flushed as a non-terminal chunk
whose length field equals `0xFFFF` and which holds exactly `0xFFFF` payload
bytes; `end_skippable` flushes the remaining buffer as the terminal chunk
of any other length including 0; and writing exactly `0xFFFF + 1` bytes
forces a chunk boundary — one full chunk, then a terminal one-byte chunk.
(The chunk length field is written as a varint-encoded u16, per
`flush_buf`.) -/
theorem c5_chunk_format :
    (∀ o buf data : List Nat,
      WStack.write (.wblock (.wbase o) buf) data =
        .wblock (.wbase (o ++ fullPart (buf ++ data).length (buf ++ data)))
          (remPart (buf ++ data).length (buf ++ data)) ∧
      (remPart (buf ++ data).length (buf ++ data)).length < MAX_LEN) ∧
    (∀ (f : Nat) (b : List Nat), MAX_LEN ≤ b.length →
      fullPart (f + 1) b =
        varint_enc 2 MAX_LEN ++ b.take MAX_LEN ++ fullPart f (b.drop MAX_LEN) ∧
      (b.take MAX_LEN).length = MAX_LEN) ∧
    (∀ o buf : List Nat, buf.length < MAX_LEN →
      WStack.endSkippableW (.wblock (.wbase o) buf) =
        .ok (.wbase (o ++ (varint_enc 2 buf.length ++ buf)))) ∧
    (∀ o D : List Nat, D.length = MAX_LEN + 1 →
      WStack.endSkippableW (WStack.write (WStack.startSkippableW (.wbase o)) D) =
        .ok (.wbase (o ++ (varint_enc 2 MAX_LEN ++
          (D.take MAX_LEN ++ (varint_enc 2 1 ++ D.drop MAX_LEN)))))) := by
  refine ⟨?_, ?_, ?_, ?_⟩
  · intro o buf data
    exact ⟨write_block1 o buf data, remPart_lt_max _ _ (le_refl _)⟩
  · intro f b hmax
    constructor
    · rw [fullPart, if_pos hmax]
    · rw [List.length_take]
      omega
  · intro o buf h
    exact endSkippableW_block1 o buf h
  · intro o D hD
    have hMe : MAX_LEN = 65535 := rfl
    show WStack.endSkippableW (WStack.write (.wblock (.wbase o) []) D) = _
    rw [write_block1]
    simp only [List.nil_append]
    have hdrop : (D.drop MAX_LEN).length = 1 := by
      simp only [List.length_drop]
      omega
    have hfull : fullPart D.length D = varint_enc 2 MAX_LEN ++ D.take MAX_LEN := by
      rw [hD]
      rw [fullPart, if_pos (by omega)]
      rw [fullPart_small _ _ (by simp only [List.length_drop]; omega)]
      simp
    have hrem : remPart D.length D = D.drop MAX_LEN := by
      rw [hD]
      rw [remPart, if_pos (by omega)]
      rw [remPart_small _ _ (by simp only [List.length_drop]; omega)]
    rw [hfull, hrem]
    rw [endSkippableW_block1 _ _ (by omega)]
    rw [hdrop]
    simp [List.append_assoc]

/-- Witness for C5 at the forced chunk boundary: `0xFFFF + 1` bytes of
payload. -/
theorem c5_chunk_format_witness :
    WStack.endSkippableW
        (WStack.write (WStack.startSkippableW (.wbase [7])) (List.replicate (MAX_LEN + 1) 3)) =
      .ok (.wbase ([7] ++ (varint_enc 2 MAX_LEN ++
        ((List.replicate (MAX_LEN + 1) 3).take MAX_LEN ++
          (varint_enc 2 1 ++ (List.replicate (MAX_LEN + 1) 3).drop MAX_LEN))))) :=
  c5_chunk_format.2.2.2 [7] (List.replicate (MAX_LEN + 1) 3) (by simp)

end Postbag

namespace Postbag

/-- C1: Skippable-block round-trip and alignment: for every sequence of
byte-writes performed between `start_skippable` and `end_skippable` on the
encode side, the encoder emits the chunk stream of the concatenated data,
and a decoder that calls `start_skippable` at the corresponding stream
position reads back exactly those bytes in order with a single read request
(spanning chunks transparently) for every amount `ct` actually consumed,
including zero; the decoder's `end_skippable` then reads and discards all
remaining unread bytes through the terminal chunk, so the outer stream
position afterwards is exactly the first byte after the encoded block. -/
theorem c1_skippable_roundtrip (ws : List (List Nat)) (o T : List Nat) (ct : Nat)
    (hct : ct ≤ ws.flatten.length) :
    WStack.endSkippableW (runWrites ws (WStack.startSkippableW (.wbase o))) =
      .ok (.wbase (o ++ chunksOf ws.flatten)) ∧
    ∃ s2, (DStack.startSkippable (.base (chunksOf ws.flatten ++ T))).takeN ct =
        (.ok (ws.flatten.take ct), s2) ∧
      DStack.endSkippable s2 = (.ok (), .base T) := by
  have hM := MAX_LEN_pos
  set F := ws.flatten with hF
  constructor
  · -- encode side
    show WStack.endSkippableW (runWrites ws (.wblock (.wbase o) [])) = _
    rw [runWrites_block1 ws o [] (by simp; omega)]
    simp only [List.nil_append]
    have hrlt : (remPart F.length F).length < MAX_LEN := remPart_lt_max _ _ (le_refl _)
    rw [endSkippableW_block1 _ _ hrlt]
    rw [chunksOf, chunksF_decomp]
    simp only [List.append_assoc]
  · -- decode side
    have hO : Offers (DStack.startSkippable (.base (chunksOf F ++ T))) F T := by
      have := Offers.mid [] F T (chunksOf F ++ T) (chunksOf_chunks F T)
      simpa [DStack.startSkippable] using this
    obtain ⟨s2, htake, hO2, hd2⟩ := takeN_offers hO hct
    obtain ⟨B2, rem2, hn2, hshape⟩ := hO2.block_shape (by
      rw [hd2]
      rfl)
    subst hshape
    exact ⟨_, htake, endSkippable_offers hO2⟩

/-- Witness for C1: two writes `[1, 2]` and `[3]`, two bytes consumed by
the decoder, one trailing byte. -/
theorem c1_skippable_roundtrip_witness :
    WStack.endSkippableW (runWrites [[1, 2], [3]] (WStack.startSkippableW (.wbase [7]))) =
      .ok (.wbase ([7] ++ chunksOf [[1, 2], [3]].flatten)) ∧
    ∃ s2, (DStack.startSkippable (.base (chunksOf [[1, 2], [3]].flatten ++ [9]))).takeN 2 =
        (.ok ([[1, 2], [3]].flatten.take 2), s2) ∧
      DStack.endSkippable s2 = (.ok (), .base [9]) :=
  c1_skippable_roundtrip [[1, 2], [3]] [7] [9] 2 (by decide)

end Postbag

namespace Postbag

/-- C10: Unknown-length collection termination: when decoding a sequence
or map in the unknown-length regime, an element (or key) decode failing
with `EndOfBlock` is converted by `next_element_seed`/`next_key_seed` into
the regular end of the collection, and every other error raised while
decoding an element propagates unchanged. -/
theorem c10_unknown_length_termination {α : Type}
    (dec : DStack → (Except Err α) × DStack) (s : DStack) :
    (∀ (a : α) (s1 : DStack), dec s = (.ok a, s1) →
      nextElementUnknown dec s = (.ok (some a), s1)) ∧
    (∀ s1 : DStack, dec s = (.error .endOfBlock, s1) →
      nextElementUnknown dec s = (.ok none, s1)) ∧
    (∀ (e : Err) (s1 : DStack), dec s = (.error e, s1) → e ≠ .endOfBlock →
      nextElementUnknown dec s = (.error e, s1)) := by
  refine ⟨?_, ?_, ?_⟩
  · intro a s1 h
    simp [nextElementUnknown, h]
  · intro s1 h
    simp [nextElementUnknown, h]
  · intro e s1 h hne
    cases e <;> first
      | exact absurd rfl hne
      | simp [nextElementUnknown, h]

/-- Witness for C10: an element decoder ending the collection via
`EndOfBlock`, one yielding a value, and one failing with `BadVarint`. -/
theorem c10_unknown_length_termination_witness :
    nextElementUnknown (fun s => ((.error .endOfBlock : Except Err Nat), s)) (.base []) =
      (.ok none, .base []) ∧
    nextElementUnknown (fun s => ((.ok 42 : Except Err Nat), s)) (.base []) =
      (.ok (some 42), .base []) ∧
    nextElementUnknown (fun s => ((.error .badVarint : Except Err Nat), s)) (.base []) =
      (.error .badVarint, .base []) :=
  ⟨(c10_unknown_length_termination (fun s => ((.error .endOfBlock : Except Err Nat), s))
      (.base [])).2.1 (.base []) rfl,
   (c10_unknown_length_termination (fun s => ((.ok 42 : Except Err Nat), s))
      (.base [])).1 42 (.base []) rfl,
   (c10_unknown_length_termination (fun s => ((.error .badVarint : Except Err Nat), s))
      (.base [])).2.2 .badVarint (.base []) rfl (by decide)⟩

end Postbag

namespace Postbag

/-! ## Unknown-length maps (C8) -/

theorem varint_enc_loop_length_le : ∀ (f v : Nat), (varint_enc_loop f v).length ≤ f := by
  intro f
  induction f with
  | zero => intro v; simp [varint_enc_loop]
  | succ f ih =>
    intro v
    rw [varint_enc_loop]
    split
    · simp
    · simp only [List.length_cons]
      have := ih (v / 128)
      omega

theorem varint_enc_loop_length_pos : ∀ (f v : Nat), 1 ≤ f →
    1 ≤ (varint_enc_loop f v).length := by
  intro f v hf
  match f, hf with
  | f + 1, _ =>
    rw [varint_enc_loop]
    split <;> simp

theorem varint_enc8_short (v : Nat) : (varint_enc 8 v).length < MAX_LEN := by
  have h := varint_enc_loop_length_le (varint_max 8) v
  have : varint_max 8 = 10 := rfl
  rw [this] at h
  show (varint_enc_loop (varint_max 8) v).length < MAX_LEN
  rw [‹varint_max 8 = 10›]
  have hM : MAX_LEN = 65535 := rfl
  omega

theorem chunksF_small (f : Nat) (b : List Nat) (h : b.length < MAX_LEN) :
    chunksF f b = varint_enc 2 b.length ++ b := by
  cases f with
  | zero => rfl
  | succ f => rw [chunksF, if_neg (by omega)]

theorem chunksF_length_ge : ∀ (f : Nat) (D : List Nat), D.length ≤ (chunksF f D).length := by
  intro f
  induction f with
  | zero =>
    intro D
    simp [chunksF]
  | succ f ih =>
    intro D
    rw [chunksF]
    split
    · simp only [List.length_append]
      have h1 := ih (D.drop MAX_LEN)
      simp only [List.length_drop] at h1
      have h2 : (D.take MAX_LEN).length = min MAX_LEN D.length := List.length_take _ _
      omega
    · simp

/-- Encoded bytes of one map pair: key varint then value varint. -/
def pairEnc (p : Nat × Nat) : List Nat := varint_enc 8 p.1 ++ varint_enc 8 p.2

/-- Encoded bytes of all map pairs. -/
def pairsBytes (ps : List (Nat × Nat)) : List Nat := (ps.map pairEnc).flatten

theorem serMap_foldl_eq_runWrites : ∀ (ps : List (Nat × Nat)) (w : WStack),
    ps.foldl (fun acc p => (acc.write (varint_enc 8 p.1)).write (varint_enc 8 p.2)) w =
      runWrites (ps.flatMap fun p => [varint_enc 8 p.1, varint_enc 8 p.2]) w := by
  intro ps
  induction ps with
  | nil => intro w; rfl
  | cons p ps ih =>
    intro w
    simp only [List.foldl_cons, List.flatMap_cons]
    rw [ih]
    rfl

theorem pairsWs_flatten (ps : List (Nat × Nat)) :
    (ps.flatMap fun p => [varint_enc 8 p.1, varint_enc 8 p.2]).flatten = pairsBytes ps := by
  induction ps with
  | nil => rfl
  | cons p ps ih =>
    simp only [List.flatMap_cons, List.flatten_append, pairsBytes, List.map_cons,
      List.flatten_cons] at *
    rw [ih]
    simp [pairEnc, List.append_assoc]

theorem pairsBytes_length_ge (ps : List (Nat × Nat)) :
    ps.length ≤ (pairsBytes ps).length := by
  induction ps with
  | nil => simp [pairsBytes]
  | cons p ps ih =>
    simp only [pairsBytes, List.map_cons, List.flatten_cons, List.length_append,
      List.length_cons] at *
    have h1 : 1 ≤ (pairEnc p).length := by
      simp only [pairEnc, List.length_append, varint_enc]
      have := varint_enc_loop_length_pos (varint_max 8) p.1 (by norm_num [varint_max])
      omega
    omega

/-- The unknown-length map encoder emits the sentinel pair, then the pairs
inside one skippable block. -/
theorem serMapUnknown_wbase (o : List Nat) (ps : List (Nat × Nat)) :
    serMapUnknown (.wbase o) ps =
      .ok (.wbase (o ++ (varint_enc 8 SPECIAL_LEN ++ (varint_enc 8 UNKNOWN_LEN ++
        chunksOf (pairsBytes ps))))) := by
  have hM := MAX_LEN_pos
  rw [serMapUnknown, serMap_foldl_eq_runWrites]
  have hstart : serSeqLen none (.wbase o) =
      .wblock (.wbase (o ++ varint_enc 8 SPECIAL_LEN ++ varint_enc 8 UNKNOWN_LEN)) [] := by
    simp [serSeqLen, writeUsize, write_wbase, WStack.startSkippableW]
  rw [hstart]
  rw [runWrites_block1 _ _ _ (by simp; omega)]
  simp only [List.nil_append, pairsWs_flatten]
  rw [WStack.endSkippableW]
  rw [if_neg (by
    have := remPart_lt_max (pairsBytes ps).length (pairsBytes ps) (le_refl _)
    omega)]
  show Except.ok (WStack.write (WStack.write (.wbase _) _) _) = _
  rw [write_wbase, write_wbase]
  rw [chunksOf, chunksF_decomp]
  simp [List.append_assoc]

/-- The pair loop of unknown-length map decoding reads back every pair and
stops at `EndOfBlock`. -/
theorem readMapPairs_offers : ∀ (ps : List (Nat × Nat)) (fuel : Nat) (B T : List Nat)
    (rem : Nat) (hn : Bool),
    Offers (.block (.base B) rem hn) (pairsBytes ps) T →
    (∀ p ∈ ps, p.1 < 2 ^ 64 ∧ p.2 < 2 ^ 64) →
    ps.length + 1 ≤ fuel →
    ∃ B2 rem2 hn2, readMapPairs fuel (.block (.base B) rem hn) =
      (.ok ps, .block (.base B2) rem2 hn2) ∧
      Offers (.block (.base B2) rem2 hn2) [] T := by
  intro ps
  induction ps with
  | nil =>
    intro fuel B T rem hn hO hps hfuel
    match fuel, hfuel with
    | fuel + 1, _ =>
      have hO0 : Offers (.block (.base B) rem hn) [] T := by
        simpa [pairsBytes] using hO
      obtain ⟨B2, rem2, hn2, hread, hO2⟩ := readVarint_exhausted (show 1 ≤ 8 by norm_num) hO0
      rw [readMapPairs, hread]
      exact ⟨B2, rem2, hn2, rfl, hO2⟩
  | cons p ps ih =>
    intro fuel B T rem hn hO hps hfuel
    match fuel, hfuel with
    | fuel + 1, hfuel2 =>
      have h64 : (8 : Nat) * 8 % 7 ≠ 0 := by norm_num
      have hp := hps p (by simp)
      have hO1 : Offers (.block (.base B) rem hn)
          (varint_enc 8 p.1 ++ (varint_enc 8 p.2 ++ pairsBytes ps)) T := by
        simpa [pairsBytes, pairEnc, List.append_assoc] using hO
      obtain ⟨s2, hk, hO2, hd2⟩ := readVarint_offers h64 hO1 hp.1
      obtain ⟨Bk, remk, hnk, hsk⟩ := hO2.block_shape (by rw [hd2]; rfl)
      subst hsk
      obtain ⟨s3, hv, hO3, hd3⟩ := readVarint_offers h64 hO2 hp.2
      obtain ⟨Bv, remv, hnv, hsv⟩ := hO3.block_shape (by rw [hd3]; rfl)
      subst hsv
      obtain ⟨B2, rem2, hn2, hrec, hO4⟩ := ih fuel Bv T remv hnv hO3
        (fun q hq => hps q (by simp [hq]))
        (by simp only [List.length_cons] at hfuel2; omega)
      refine ⟨B2, rem2, hn2, ?_, hO4⟩
      rw [readMapPairs]
      simp only [hk, hv, hrec]

/-- The unknown-length map decoder reconstructs every pair and leaves the
reader after the block. -/
theorem readMap_unknown (ps : List (Nat × Nat)) (T : List Nat)
    (hps : ∀ p ∈ ps, p.1 < 2 ^ 64 ∧ p.2 < 2 ^ 64) :
    readMap (.base (varint_enc 8 SPECIAL_LEN ++ (varint_enc 8 UNKNOWN_LEN ++
        (chunksOf (pairsBytes ps) ++ T)))) = (.ok ps, .base T) := by
  have hseq := c3_length_marker_multiplexing.2.2.2.2.2.1 (chunksOf (pairsBytes ps) ++ T)
  have hBform : (DStack.base (chunksOf (pairsBytes ps) ++ T)).startSkippable =
      DStack.block (.base (chunksOf (pairsBytes ps) ++ T)) 0 true := rfl
  rw [hBform] at hseq
  have hO : Offers (DStack.block (.base (chunksOf (pairsBytes ps) ++ T)) 0 true)
      (pairsBytes ps) T := by
    have := Offers.mid [] (pairsBytes ps) T (chunksOf (pairsBytes ps) ++ T)
      (chunksOf_chunks _ T)
    simpa using this
  have hfuel : ps.length + 1 ≤
      (DStack.block (.base (chunksOf (pairsBytes ps) ++ T)) 0 true).sizeB + 1 := by
    show ps.length + 1 ≤ (chunksOf (pairsBytes ps) ++ T).length + 1
    have h1 := pairsBytes_length_ge ps
    have h2 := chunksF_length_ge (pairsBytes ps).length (pairsBytes ps)
    simp only [List.length_append]
    simp only [chunksOf]
    omega
  obtain ⟨B2, rem2, hn2, hloop, hO2⟩ := readMapPairs_offers ps
    ((DStack.block (.base (chunksOf (pairsBytes ps) ++ T)) 0 true).sizeB + 1)
    (chunksOf (pairsBytes ps) ++ T) T 0 true hO hps hfuel
  rw [readMap]
  simp only [hseq, hloop, endSkippable_offers hO2]

/-- C8: Unknown-length maps: for every map whose length is not known in
advance, encoding succeeds, emits the sentinel length-marker pair
signalling unknown, opens a skippable block, encodes each key/value pair
and closes the block — exactly as for unknown-length sequences — and
decoding such a map reconstructs every pair. -/
theorem c8_unknown_length_maps (o T : List Nat) (ps : List (Nat × Nat))
    (hps : ∀ p ∈ ps, p.1 < 2 ^ 64 ∧ p.2 < 2 ^ 64) :
    serMapUnknown (.wbase o) ps =
      .ok (.wbase (o ++ (varint_enc 8 SPECIAL_LEN ++ (varint_enc 8 UNKNOWN_LEN ++
        chunksOf (pairsBytes ps))))) ∧
    readMap (.base (varint_enc 8 SPECIAL_LEN ++ (varint_enc 8 UNKNOWN_LEN ++
        (chunksOf (pairsBytes ps) ++ T)))) = (.ok ps, .base T) :=
  ⟨serMapUnknown_wbase o ps, readMap_unknown ps T hps⟩

/-- Witness for C8: the two-pair map `{1 ↦ 2, 300 ↦ 4}`. -/
theorem c8_unknown_length_maps_witness :
    serMapUnknown (.wbase []) [(1, 2), (300, 4)] =
      .ok (.wbase ([] ++ (varint_enc 8 SPECIAL_LEN ++ (varint_enc 8 UNKNOWN_LEN ++
        chunksOf (pairsBytes [(1, 2), (300, 4)]))))) ∧
    readMap (.base (varint_enc 8 SPECIAL_LEN ++ (varint_enc 8 UNKNOWN_LEN ++
        (chunksOf (pairsBytes [(1, 2), (300, 4)]) ++ [9])))) =
      (.ok [(1, 2), (300, 4)], .base [9]) :=
  c8_unknown_length_maps [] [9] [(1, 2), (300, 4)] (by decide)

end Postbag

namespace Postbag

/-! ## Full-config struct field evolution (C4) -/

/-- Encoded bytes of one Full-config struct field: its identifier, then
its value inside its own skippable block. -/
def fieldBytes (f : List Nat × Nat) : List Nat :=
  encode_identifier f.1 ++ chunksOf (varint_enc 8 f.2)

/-- Encoded bytes of all fields of a struct. -/
def fieldsBytes (fs : List (List Nat × Nat)) : List Nat := (fs.map fieldBytes).flatten

theorem serStructField_wbase (o name : List Nat) (v : Nat) :
    serStructField (.wbase o) name v = .ok (.wbase (o ++ fieldBytes (name, v))) := by
  have hshort := varint_enc8_short v
  rw [serStructField, write_wbase]
  show WStack.endSkippableW (WStack.write (.wblock (.wbase (o ++ encode_identifier name)) []) _) = _
  rw [write_block1]
  simp only [List.nil_append]
  rw [fullPart_small _ _ hshort, remPart_small _ _ hshort]
  rw [List.append_nil]
  rw [endSkippableW_block1 _ _ hshort]
  rw [fieldBytes, chunksOf, chunksF_small _ _ hshort]
  simp [List.append_assoc]

theorem serStructFull_wbase : ∀ (fs : List (List Nat × Nat)) (o : List Nat),
    serStructFull (.wbase o) fs = .ok (.wbase (o ++ fieldsBytes fs)) := by
  intro fs
  induction fs with
  | nil =>
    intro o
    simp [serStructFull, fieldsBytes]
  | cons f fs ih =>
    intro o
    obtain ⟨name, v⟩ := f
    simp only [serStructFull, serStructField_wbase, ih]
    simp [fieldsBytes, fieldBytes, List.append_assoc]

theorem serStruct_wbase (o : List Nat) (fs : List (List Nat × Nat)) :
    serStruct (.wbase o) fs =
      .ok (.wbase (o ++ (varint_enc 8 fs.length ++ fieldsBytes fs))) := by
  rw [serStruct]
  show serStructFull (.wbase (o ++ varint_enc 8 fs.length)) fs = _
  rw [serStructFull_wbase]
  rw [List.append_assoc]

theorem readStructFields_enc : ∀ (fs : List (List Nat × Nat)) (known : List Nat → Bool)
    (T : List Nat),
    (∀ f ∈ fs, utf8Valid f.1 = true ∧ f.1.length < 2 ^ 64 ∧ f.2 < 2 ^ 64) →
    readStructFields known fs.length (.base (fieldsBytes fs ++ T)) =
      (.ok (fs.filter fun f => known f.1), .base T) := by
  intro fs
  induction fs with
  | nil =>
    intro known T hfs
    simp [readStructFields, fieldsBytes]
  | cons f fs ih =>
    intro known T hfs
    have hf := hfs f (by simp)
    have h64 : (8 : Nat) * 8 % 7 ≠ 0 := by norm_num
    have hstream : fieldsBytes (f :: fs) ++ T =
        encode_identifier f.1 ++ (chunksOf (varint_enc 8 f.2) ++ (fieldsBytes fs ++ T)) := by
      simp [fieldsBytes, fieldBytes, List.append_assoc]
    have hid := read_identifier_enc f.1 (chunksOf (varint_enc 8 f.2) ++ (fieldsBytes fs ++ T))
      hf.2.1 hf.1
    have hO : Offers (DStack.block (.base (chunksOf (varint_enc 8 f.2) ++ (fieldsBytes fs ++ T)))
        0 true) (varint_enc 8 f.2) (fieldsBytes fs ++ T) := by
      have := Offers.mid [] (varint_enc 8 f.2) (fieldsBytes fs ++ T)
        (chunksOf (varint_enc 8 f.2) ++ (fieldsBytes fs ++ T)) (chunksOf_chunks _ _)
      simpa using this
    have hrec := ih known T (fun q hq => hfs q (by simp [hq]))
    show readStructFields known (fs.length + 1) (.base (fieldsBytes (f :: fs) ++ T)) = _
    rw [hstream, readStructFields]
    simp only [hid]
    have hstart : (DStack.base (chunksOf (varint_enc 8 f.2) ++
        (fieldsBytes fs ++ T))).startSkippable =
        DStack.block (.base (chunksOf (varint_enc 8 f.2) ++ (fieldsBytes fs ++ T))) 0 true := rfl
    rw [hstart]
    by_cases hk : known f.1
    · have hO1 : Offers (DStack.block (.base (chunksOf (varint_enc 8 f.2) ++
          (fieldsBytes fs ++ T))) 0 true) (varint_enc 8 f.2 ++ []) (fieldsBytes fs ++ T) := by
        simpa using hO
      obtain ⟨s3, hval, hO3, hd3⟩ := readVarint_offers h64 hO1 hf.2.2
      obtain ⟨B3, rem3, hn3, hs3⟩ := hO3.block_shape (by rw [hd3]; rfl)
      subst hs3
      simp only [hk, if_true, hval, endSkippable_offers hO3, hrec]
      simp [List.filter_cons, hk]
    · simp only [hk]
      simp only [Bool.false_eq_true, if_false]
      simp only [endSkippable_offers hO, hrec]
      simp [List.filter_cons, hk]

/-- C4: Full-config struct field evolution: a struct is encoded as a varint
field count then, per field, its identifier and its value wrapped in its
own skippable block; decoding with the reader's field set `known` drains
the skip block of every field whose identifier the reader does not know and
omits that field, returning exactly the fields present in both the writer's
struct and the reader's set — so adding a defaulted field to the reader or
removing a field from the writer still round-trips every shared field. -/
theorem c4_struct_field_evolution (o T : List Nat) (fs : List (List Nat × Nat))
    (known : List Nat → Bool) (hlen : fs.length < 2 ^ 64)
    (hfs : ∀ f ∈ fs, utf8Valid f.1 = true ∧ f.1.length < 2 ^ 64 ∧ f.2 < 2 ^ 64) :
    serStruct (.wbase o) fs =
      .ok (.wbase (o ++ (varint_enc 8 fs.length ++ fieldsBytes fs))) ∧
    readStruct known (.base (varint_enc 8 fs.length ++ (fieldsBytes fs ++ T))) =
      (.ok (fs.filter fun f => known f.1), .base T) := by
  refine ⟨serStruct_wbase o fs, ?_⟩
  have h64 : (8 : Nat) * 8 % 7 ≠ 0 := by norm_num
  have hcount := readVarint_enc h64 fs.length (fieldsBytes fs ++ T) hlen
  simp only [readStruct, readUsize, hcount]
  exact readStructFields_enc fs known T hfs

/-- Witness for C4: the writer has fields `_3 ↦ 10` and `hi ↦ 300`; the
reader only knows `_3`, so `hi` is skipped and `_3` round-trips. -/
theorem c4_struct_field_evolution_witness :
    serStruct (.wbase []) [([95, 51], 10), ([104, 105], 300)] =
      .ok (.wbase ([] ++ (varint_enc 8 (2 : Nat) ++
        fieldsBytes [([95, 51], 10), ([104, 105], 300)]))) ∧
    readStruct (fun n => n == [95, 51])
        (.base (varint_enc 8 (2 : Nat) ++
          (fieldsBytes [([95, 51], 10), ([104, 105], 300)] ++ [9]))) =
      (.ok [([95, 51], 10)], .base [9]) := by
  have h := c4_struct_field_evolution [] [9] [([95, 51], 10), ([104, 105], 300)]
    (fun n => n == [95, 51]) (by norm_num) (by decide)
  simpa using h

end Postbag

namespace Postbag

/-! ## Skip-block protocol violations (C9) -/

/-- An outcome that is not the modelled panic: either a success or a
recoverable data error. -/
def PanFree {α : Type} (r : Except Err α) : Prop :=
  ∀ e, r = .error e → e ≠ Err.panicked

theorem panFree_ok {α : Type} (x : α) : PanFree (.ok x) := by
  intro e h
  exact absurd h (by simp)

theorem panFree_err {α : Type} {e : Err} (h : e ≠ Err.panicked) :
    PanFree (Except.error e : Except Err α) := by
  intro e2 h2
  injection h2 with h3
  exact h3 ▸ h

theorem panFree_elim {α : Type} {e : Err} (h : PanFree (Except.error e : Except Err α)) :
    e ≠ Err.panicked := h e rfl

/-- A byte-taking function that never panics, preserves the block depth and
preserves the state invariant `P`. -/
def TkGood (tk : DStack → Nat → (Except Err (List Nat)) × DStack) (P : DStack → Prop) : Prop :=
  ∀ s ct, P s → PanFree (tk s ct).1 ∧ (tk s ct).2.depth = s.depth ∧ P (tk s ct).2

theorem rvLoop_noPanic (tk : DStack → Nat → (Except Err (List Nat)) × DStack)
    (P : DStack → Prop) (Htk : TkGood tk P) (nb : Nat) :
    ∀ fuel i out s, P s →
      PanFree (DStack.rvLoop tk nb fuel i out s).1 ∧
      (DStack.rvLoop tk nb fuel i out s).2.depth = s.depth ∧
      P (DStack.rvLoop tk nb fuel i out s).2 := by
  intro fuel
  induction fuel with
  | zero =>
    intro i out s hP
    exact ⟨panFree_err (by simp), rfl, hP⟩
  | succ fuel ih =>
    intro i out s hP
    have h := Htk s 1 hP
    rcases htk : tk s 1 with ⟨r, s1⟩
    rw [htk] at h
    obtain ⟨h1, h2, h3⟩ := h
    cases r with
    | error e =>
      have he := panFree_elim h1
      simp only [DStack.rvLoop, htk]
      exact ⟨panFree_err he, h2, h3⟩
    | ok l =>
      simp only [DStack.rvLoop, htk]
      by_cases hterm : l.headD 0 &&& 128 = 0
      · rw [if_pos hterm]
        by_cases hbad : i = varint_max nb - 1 ∧ max_of_last_byte nb < l.headD 0
        · rw [if_pos hbad]
          exact ⟨panFree_err (by simp), h2, h3⟩
        · rw [if_neg hbad]
          exact ⟨panFree_ok _, h2, h3⟩
      · rw [if_neg hterm]
        have hr := ih (i + 1) (out ||| (l.headD 0 &&& 127) <<< (7 * i) % 2 ^ (8 * nb)) s1 h3
        exact ⟨hr.1, hr.2.1.trans h2, hr.2.2⟩

theorem updateRem_noPanic (tk : DStack → Nat → (Except Err (List Nat)) × DStack)
    (P : DStack → Prop) (Htk : TkGood tk P) (inner : DStack) (rem : Nat) (hn : Bool)
    (hP : P inner) :
    PanFree (DStack.updateRem tk inner rem hn).1 ∧
    (DStack.updateRem tk inner rem hn).2.1.depth = inner.depth ∧
    P (DStack.updateRem tk inner rem hn).2.1 := by
  rw [DStack.updateRem]
  by_cases h0 : 0 < rem ∨ hn = false
  · rw [if_pos h0]
    exact ⟨panFree_ok _, rfl, hP⟩
  · rw [if_neg h0]
    have h := rvLoop_noPanic tk P Htk 2 (varint_max 2) 0 0 inner hP
    rcases hrv : DStack.rvLoop tk 2 (varint_max 2) 0 0 inner with ⟨r, inner1⟩
    rw [hrv] at h
    obtain ⟨h1, h2, h3⟩ := h
    cases r with
    | error e =>
      have he := panFree_elim h1
      exact ⟨panFree_err he, h2, h3⟩
    | ok len =>
      exact ⟨panFree_ok _, h2, h3⟩

theorem blockLoop_noPanic (tk : DStack → Nat → (Except Err (List Nat)) × DStack)
    (P : DStack → Prop) (Htk : TkGood tk P) :
    ∀ fuel inner rem hn ct acc, P inner →
      PanFree (DStack.blockLoop tk fuel inner rem hn ct acc).1 ∧
      ∃ inner1 rem1 hn1, (DStack.blockLoop tk fuel inner rem hn ct acc).2 =
          .block inner1 rem1 hn1 ∧ inner1.depth = inner.depth ∧ P inner1 := by
  intro fuel
  induction fuel with
  | zero =>
    intro inner rem hn ct acc hP
    by_cases hct : ct = 0
    · rw [DStack.blockLoop, if_pos hct]
      exact ⟨panFree_ok _, inner, rem, hn, rfl, rfl, hP⟩
    · rw [DStack.blockLoop, if_neg hct]
      exact ⟨panFree_err (by simp), inner, rem, hn, rfl, rfl, hP⟩
  | succ fuel ih =>
    intro inner rem hn ct acc hP
    by_cases hct : ct = 0
    · rw [DStack.blockLoop, if_pos hct]
      exact ⟨panFree_ok _, inner, rem, hn, rfl, rfl, hP⟩
    · have hur := updateRem_noPanic tk P Htk inner rem hn hP
      rcases hu : DStack.updateRem tk inner rem hn with ⟨r, inner1, rem1, hn1⟩
      rw [hu] at hur
      obtain ⟨h1, h2, h3⟩ := hur
      cases r with
      | error e =>
        have he := panFree_elim h1
        rw [DStack.blockLoop, if_neg hct]
        simp only [hu]
        exact ⟨panFree_err he, inner1, rem1, hn1, rfl, h2, h3⟩
      | ok u =>
        by_cases hrem : rem1 = 0
        · rw [DStack.blockLoop, if_neg hct]
          simp only [hu, hrem, if_pos rfl]
          exact ⟨panFree_err (by simp), inner1, 0, hn1, by simp [hrem], h2, h3⟩
        · have htk2 := Htk inner1 (min ct rem1) h3
          rcases ht : tk inner1 (min ct rem1) with ⟨r2, inner2⟩
          rw [ht] at htk2
          obtain ⟨g1, g2, g3⟩ := htk2
          cases r2 with
          | error e =>
            have he := panFree_elim g1
            rw [DStack.blockLoop, if_neg hct]
            simp only [hu, if_neg hrem, ht]
            exact ⟨panFree_err he, inner2, rem1, hn1, rfl, g2.trans h2, g3⟩
          | ok buf =>
            have hr := ih inner2 (rem1 - min ct rem1) hn1 (ct - min ct rem1) (acc ++ buf) g3
            rw [DStack.blockLoop, if_neg hct]
            simp only [hu, if_neg hrem, ht]
            obtain ⟨p1, inner3, rem3, hn3, p2, p3, p4⟩ := hr
            exact ⟨p1, inner3, rem3, hn3, p2, p3.trans (g2.trans h2), p4⟩

theorem blockTake_noPanic (tk : DStack → Nat → (Except Err (List Nat)) × DStack)
    (P : DStack → Prop) (Htk : TkGood tk P) (inner : DStack) (rem : Nat) (hn : Bool)
    (ct : Nat) (hP : P inner) :
    PanFree (DStack.blockTake tk inner rem hn ct).1 ∧
    ∃ inner1 rem1 hn1, (DStack.blockTake tk inner rem hn ct).2 =
        .block inner1 rem1 hn1 ∧ inner1.depth = inner.depth ∧ P inner1 := by
  have hur := updateRem_noPanic tk P Htk inner rem hn hP
  rcases hu : DStack.updateRem tk inner rem hn with ⟨r, inner1, rem1, hn1⟩
  rw [hu] at hur
  obtain ⟨h1, h2, h3⟩ := hur
  cases r with
  | error e =>
    have he := panFree_elim h1
    rw [DStack.blockTake]
    simp only [hu]
    exact ⟨panFree_err he, inner1, rem1, hn1, rfl, h2, h3⟩
  | ok u =>
    by_cases hle : ct ≤ rem1
    · have htk2 := Htk inner1 ct h3
      rcases ht : tk inner1 ct with ⟨r2, inner2⟩
      rw [ht] at htk2
      obtain ⟨g1, g2, g3⟩ := htk2
      cases r2 with
      | error e =>
        have he := panFree_elim g1
        rw [DStack.blockTake]
        simp only [hu, if_pos hle, ht]
        exact ⟨panFree_err he, inner2, rem1, hn1, rfl, g2.trans h2, g3⟩
      | ok buf =>
        rw [DStack.blockTake]
        simp only [hu, if_pos hle, ht]
        exact ⟨panFree_ok _, inner2, rem1 - ct, hn1, rfl, g2.trans h2, g3⟩
    · rw [DStack.blockTake]
      simp only [hu, if_neg hle]
      have hr := blockLoop_noPanic tk P Htk ct inner1 rem1 hn1 ct [] h3
      obtain ⟨p1, inner3, rem3, hn3, p2, p3, p4⟩ := hr
      exact ⟨p1, inner3, rem3, hn3, p2, p3.trans h2, p4⟩

theorem takeND_good : ∀ d : Nat, TkGood (DStack.takeND d) (fun s => s.depth ≤ d) := by
  intro d
  induction d with
  | zero =>
    intro s ct hP
    cases s with
    | base bs =>
      show PanFree (DStack.baseTake bs ct).1 ∧ (DStack.baseTake bs ct).2.depth = 0 ∧
        (DStack.baseTake bs ct).2.depth ≤ 0
      rw [DStack.baseTake]
      by_cases hle : ct ≤ bs.length
      · rw [if_pos hle]
        exact ⟨panFree_ok _, rfl, le_rfl⟩
      · rw [if_neg hle]
        exact ⟨panFree_err (by simp), rfl, le_rfl⟩
    | block inner rem hn =>
      simp [DStack.depth] at hP
  | succ d ih =>
    intro s ct hP
    cases s with
    | base bs =>
      show PanFree (DStack.baseTake bs ct).1 ∧ (DStack.baseTake bs ct).2.depth = 0 ∧
        (DStack.baseTake bs ct).2.depth ≤ d + 1
      rw [DStack.baseTake]
      by_cases hle : ct ≤ bs.length
      · rw [if_pos hle]
        exact ⟨panFree_ok _, rfl, by simp [DStack.depth]⟩
      · rw [if_neg hle]
        exact ⟨panFree_err (by simp), rfl, by simp [DStack.depth]⟩
    | block inner rem hn =>
      have hPi : inner.depth ≤ d := by
        simp only [DStack.depth] at hP
        omega
      have hr := blockTake_noPanic (DStack.takeND d) (fun s => s.depth ≤ d) ih
        inner rem hn ct hPi
      obtain ⟨p1, inner1, rem1, hn1, p2, p3, p4⟩ := hr
      have heq : DStack.takeND (d + 1) (.block inner rem hn) ct =
          DStack.blockTake (DStack.takeND d) inner rem hn ct := rfl
      refine ⟨by rw [heq]; exact p1, ?_, ?_⟩
      · rw [heq, p2]
        simp only [DStack.depth, p3]
      · show (DStack.takeND (d + 1) (DStack.block inner rem hn) ct).2.depth ≤ d + 1
        rw [heq, p2]
        simp only [DStack.depth]
        omega

theorem takeN_good (s : DStack) (ct : Nat) :
    PanFree (DStack.takeN s ct).1 ∧ (DStack.takeN s ct).2.depth = s.depth := by
  have h := takeND_good s.depth s ct le_rfl
  exact ⟨h.1, h.2.1⟩

theorem takeN_tkGood : TkGood DStack.takeN (fun _ => True) := by
  intro s ct _
  exact ⟨(takeN_good s ct).1, (takeN_good s ct).2, trivial⟩

theorem finLoop_noPanic : ∀ (fuel : Nat) (inner : DStack) (rem : Nat) (hn : Bool),
    PanFree (DStack.finLoop fuel inner rem hn).1 ∧
    (∀ s1, DStack.finLoop fuel inner rem hn = (.ok (), s1) → s1.depth = inner.depth) := by
  intro fuel
  induction fuel with
  | zero =>
    intro inner rem hn
    refine ⟨panFree_err (by simp), ?_⟩
    intro s1 h
    exact absurd h (by simp [DStack.finLoop])
  | succ fuel ih =>
    intro inner rem hn
    have hur := updateRem_noPanic DStack.takeN (fun _ => True) takeN_tkGood inner rem hn trivial
    rcases hu : DStack.updateRem DStack.takeN inner rem hn with ⟨r, inner1, rem1, hn1⟩
    rw [hu] at hur
    obtain ⟨h1, h2, h3⟩ := hur
    cases r with
    | error e =>
      have he := panFree_elim h1
      rw [DStack.finLoop]
      simp only [hu]
      refine ⟨panFree_err he, ?_⟩
      intro s1 h
      exact absurd h (by simp)
    | ok u =>
      by_cases hrem : 0 < rem1
      · have htk2 := takeN_good inner1 rem1
        rcases ht : DStack.takeN inner1 rem1 with ⟨r2, inner2⟩
        rw [ht] at htk2
        obtain ⟨g1, g2⟩ := htk2
        cases r2 with
        | error e =>
          have he := panFree_elim g1
          rw [DStack.finLoop]
          simp only [hu, if_pos hrem, ht]
          refine ⟨panFree_err he, ?_⟩
          intro s1 h
          exact absurd h (by simp)
        | ok buf =>
          have hr := ih inner2 0 hn1
          rw [DStack.finLoop]
          simp only [hu, if_pos hrem, ht]
          refine ⟨hr.1, ?_⟩
          intro s1 h
          have := hr.2 s1 h
          rw [this, g2, h2]
      · rw [DStack.finLoop]
        simp only [hu, if_neg hrem]
        refine ⟨panFree_ok _, ?_⟩
        intro s1 h
        have : s1 = inner1 := by
          injection h with h4 h5
          exact h5.symm
        rw [this, h2]

theorem endSkippable_noPanic (inner : DStack) (rem : Nat) (hn : Bool) :
    PanFree (DStack.endSkippable (.block inner rem hn)).1 ∧
    (∀ s1, DStack.endSkippable (.block inner rem hn) = (.ok (), s1) → s1.depth = inner.depth) := by
  rw [DStack.endSkippable]
  exact finLoop_noPanic (inner.sizeB + 1) inner rem hn

end Postbag

namespace Postbag

/-- Encode-side invariant: every open block's buffer is strictly shorter
than `MAX_LEN` (maintained by the write path's flush loop); under it the
source's `assert_ne!` in `SkipBlock::finish` can never fire. -/
def WInv : WStack → Prop
  | .wbase _ => True
  | .wblock inner buf => buf.length < MAX_LEN ∧ WInv inner

theorem flushLoop_inv (wrF : WStack → List Nat → WStack) (P : WStack → Prop)
    (HwrF : ∀ w data, P w → P (wrF w data)) :
    ∀ fuel inner buf, P inner → buf.length ≤ fuel + (MAX_LEN - 1) →
      P (WStack.flushLoop wrF fuel inner buf).1 ∧
      (WStack.flushLoop wrF fuel inner buf).2.length < MAX_LEN := by
  have hM : MAX_LEN = 65535 := rfl
  intro fuel
  induction fuel with
  | zero =>
    intro inner buf hP hlen
    rw [WStack.flushLoop]
    refine ⟨hP, ?_⟩
    dsimp only
    omega
  | succ fuel ih =>
    intro inner buf hP hlen
    rw [WStack.flushLoop]
    by_cases hge : MAX_LEN ≤ buf.length
    · rw [if_pos hge]
      apply ih
      · exact HwrF _ _ (HwrF _ _ hP)
      · simp only [List.length_drop]
        omega
    · rw [if_neg hge]
      refine ⟨hP, ?_⟩
      dsimp only
      omega

theorem writeND_inv : ∀ (d : Nat) (w : WStack) (data : List Nat), w.wdepth ≤ d → WInv w →
    WInv (WStack.writeND d w data) ∧ (WStack.writeND d w data).wdepth = w.wdepth := by
  intro d
  induction d with
  | zero =>
    intro w data hd hI
    cases w with
    | wbase out => exact ⟨trivial, rfl⟩
    | wblock inner buf => simp [WStack.wdepth] at hd
  | succ d ih =>
    intro w data hd hI
    cases w with
    | wbase out => exact ⟨trivial, rfl⟩
    | wblock inner buf =>
      have hd2 : inner.wdepth ≤ d := by
        simp only [WStack.wdepth] at hd
        omega
      obtain ⟨hbuf, hIi⟩ := hI
      have hfl := flushLoop_inv (WStack.writeND d)
        (fun w => WInv w ∧ w.wdepth = inner.wdepth)
        (fun w data hP => ⟨(ih w data (by rw [hP.2]; exact hd2) hP.1).1,
          (ih w data (by rw [hP.2]; exact hd2) hP.1).2.trans hP.2⟩)
        (buf ++ data).length inner (buf ++ data) ⟨hIi, rfl⟩ (Nat.le_add_right _ _)
      have heq : WStack.writeND (d + 1) (.wblock inner buf) data =
          .wblock (WStack.flushLoop (WStack.writeND d) (buf ++ data).length inner (buf ++ data)).1
            (WStack.flushLoop (WStack.writeND d) (buf ++ data).length inner (buf ++ data)).2 := rfl
      rw [heq]
      exact ⟨⟨hfl.2, hfl.1.1⟩, by simp only [WStack.wdepth, hfl.1.2]⟩

theorem write_inv (w : WStack) (data : List Nat) (hI : WInv w) :
    WInv (w.write data) ∧ (w.write data).wdepth = w.wdepth := by
  rw [WStack.write]
  exact writeND_inv w.wdepth w data le_rfl hI

theorem endSkippableW_inv (inner : WStack) (buf : List Nat)
    (hI : WInv (.wblock inner buf)) :
    ∃ w1, WStack.endSkippableW (.wblock inner buf) = .ok w1 ∧ WInv w1 ∧
      w1.wdepth = inner.wdepth := by
  obtain ⟨hbuf, hIi⟩ := hI
  rw [WStack.endSkippableW, if_neg (by omega)]
  have h1 := write_inv inner (varint_enc 2 buf.length) hIi
  have h2 := write_inv (inner.write (varint_enc 2 buf.length)) buf h1.1
  exact ⟨_, rfl, h2.1, h2.2.trans h1.2⟩

/-- A caller interaction with the skippable-block engine: opening a block,
closing a block, or moving data (a write on the encode side, a read of the
same number of bytes on the decode side). -/
inductive SkipOp where
  | openB : SkipOp
  | closeB : SkipOp
  | move (data : List Nat) : SkipOp

/-- Balance of a sequence of skip operations starting at nesting depth `d`:
every close matches an open and all blocks are closed at the end. -/
def balOK : List SkipOp → Nat → Bool
  | [], d => decide (d = 0)
  | .openB :: ops, d => balOK ops (d + 1)
  | .closeB :: ops, d => decide (d ≠ 0) && balOK ops (d - 1)
  | .move _ :: ops, d => balOK ops d

/-- Driving the encode-side engine (ser/skippable.rs) through a sequence of
caller operations. -/
def runW : List SkipOp → WStack → Except Err WStack
  | [], w => .ok w
  | .openB :: ops, w => runW ops w.startSkippableW
  | .closeB :: ops, w =>
    match w.endSkippableW with
    | .error e => .error e
    | .ok w1 => runW ops w1
  | .move data :: ops, w => runW ops (w.write data)

/-- Driving the decode-side engine (de/skippable.rs) through a sequence of
caller operations. -/
def runD : List SkipOp → DStack → (Except Err Unit) × DStack
  | [], s => (.ok (), s)
  | .openB :: ops, s => runD ops s.startSkippable
  | .closeB :: ops, s =>
    match s.endSkippable with
    | (.error e, s1) => (.error e, s1)
    | (.ok _, s1) => runD ops s1
  | .move data :: ops, s =>
    match s.takeN data.length with
    | (.error e, s1) => (.error e, s1)
    | (.ok _, s1) => runD ops s1

theorem runW_balanced : ∀ (ops : List SkipOp) (w : WStack), WInv w →
    balOK ops w.wdepth = true →
    ∃ w1, runW ops w = .ok w1 ∧ WInv w1 ∧ w1.wdepth = 0 := by
  have hM : MAX_LEN = 65535 := rfl
  intro ops
  induction ops with
  | nil =>
    intro w hI hbal
    refine ⟨w, rfl, hI, ?_⟩
    simpa [balOK] using hbal
  | cons op ops ih =>
    intro w hI hbal
    cases op with
    | openB =>
      have hI2 : WInv w.startSkippableW := ⟨by simp [WStack.startSkippableW]; omega, hI⟩
      have hbal2 : balOK ops w.startSkippableW.wdepth = true := by
        simpa [balOK, WStack.startSkippableW, WStack.wdepth] using hbal
      exact ih w.startSkippableW hI2 hbal2
    | closeB =>
      rw [balOK, Bool.and_eq_true, decide_eq_true_iff] at hbal
      obtain ⟨hd0, hbal2⟩ := hbal
      cases w with
      | wbase out => simp [WStack.wdepth] at hd0
      | wblock inner buf =>
        obtain ⟨w1, hend, hI1, hd1⟩ := endSkippableW_inv inner buf hI
        have hbal3 : balOK ops w1.wdepth = true := by
          rw [hd1]
          simpa [WStack.wdepth] using hbal2
        obtain ⟨w2, hrun, hI2, hd2⟩ := ih w1 hI1 hbal3
        refine ⟨w2, ?_, hI2, hd2⟩
        rw [runW]
        simp only [hend, hrun]
    | move data =>
      have h := write_inv w data hI
      have hbal2 : balOK ops (w.write data).wdepth = true := by
        rw [h.2]
        simpa [balOK] using hbal
      exact ih (w.write data) h.1 hbal2

theorem runD_balanced : ∀ (ops : List SkipOp) (s : DStack), balOK ops s.depth = true →
    PanFree (runD ops s).1 ∧ (∀ s1, runD ops s = (.ok (), s1) → s1.depth = 0) := by
  intro ops
  induction ops with
  | nil =>
    intro s hbal
    refine ⟨panFree_ok _, ?_⟩
    intro s1 h
    have hs : s1 = s := by
      injection h with h4 h5
      exact h5.symm
    rw [hs]
    simpa [balOK] using hbal
  | cons op ops ih =>
    intro s hbal
    cases op with
    | openB =>
      have hbal2 : balOK ops s.startSkippable.depth = true := by
        simpa [balOK, DStack.startSkippable, DStack.depth] using hbal
      exact ih s.startSkippable hbal2
    | closeB =>
      rw [balOK, Bool.and_eq_true, decide_eq_true_iff] at hbal
      obtain ⟨hd0, hbal2⟩ := hbal
      cases s with
      | base bs => simp [DStack.depth] at hd0
      | block inner rem hn =>
        have hes := endSkippable_noPanic inner rem hn
        rcases hend : DStack.endSkippable (.block inner rem hn) with ⟨r, s1⟩
        rw [hend] at hes
        obtain ⟨h1, h2⟩ := hes
        cases r with
        | error e =>
          have he := panFree_elim h1
          rw [runD]
          simp only [hend]
          refine ⟨panFree_err he, ?_⟩
          intro s2 h
          exact absurd h (by simp)
        | ok u =>
          have hd1 : s1.depth = inner.depth := h2 s1 (by cases u; rfl)
          have hbal3 : balOK ops s1.depth = true := by
            rw [hd1]
            simpa [DStack.depth] using hbal2
          have hr := ih s1 hbal3
          rw [runD]
          simp only [hend]
          exact hr
    | move data =>
      have htk := takeN_good s data.length
      rcases ht : DStack.takeN s data.length with ⟨r, s1⟩
      rw [ht] at htk
      obtain ⟨h1, h2⟩ := htk
      cases r with
      | error e =>
        have he := panFree_elim h1
        rw [runD]
        simp only [ht]
        refine ⟨panFree_err he, ?_⟩
        intro s2 h
        exact absurd h (by simp)
      | ok buf =>
        have hbal2 : balOK ops s1.depth = true := by
          rw [h2]
          simpa [balOK] using hbal
        have hr := ih s1 hbal2
        rw [runD]
        simp only [ht]
        exact hr

/-- C9: skip-block protocol violations are fatal on both sides — calling
`end_skippable` with no block open and finalizing (`into_inner`) with a
block still open yield the modelled panic (`Err.panicked`, the distinguished
non-recoverable outcome), never a recoverable data error — while any
balanced operation sequence never produces the panic: the encode side
succeeds outright and finalizes, and the decode side may fail only with
recoverable data errors, finalizing cleanly whenever it succeeds. -/
theorem c9_skip_protocol_panics (bs out buf : List Nat) (dinner : DStack)
    (rem : Nat) (hn : Bool) (winner : WStack) (ops : List SkipOp)
    (hbal : balOK ops 0 = true) :
    DStack.endSkippable (.base bs) = (.error .panicked, .base bs) ∧
    DStack.intoInner (.block dinner rem hn) = .error .panicked ∧
    WStack.endSkippableW (.wbase out) = .error .panicked ∧
    WStack.intoInnerW (.wblock winner buf) = .error .panicked ∧
    (∃ res, runW ops (.wbase out) = .ok (.wbase res) ∧
      WStack.intoInnerW (.wbase res) = .ok res) ∧
    (runD ops (.base bs)).1 ≠ .error .panicked ∧
    (∀ s1, runD ops (.base bs) = (.ok (), s1) → DStack.intoInner s1 ≠ .error .panicked) := by
  refine ⟨rfl, rfl, rfl, rfl, ?_, ?_, ?_⟩
  · obtain ⟨w1, hrun, hI1, hd1⟩ := runW_balanced ops (.wbase out) trivial hbal
    cases w1 with
    | wbase res => exact ⟨res, hrun, rfl⟩
    | wblock inner2 buf2 => simp [WStack.wdepth] at hd1
  · have h := (runD_balanced ops (.base bs) hbal).1
    intro hc
    exact (h Err.panicked hc) rfl
  · intro s1 hrun
    have hd := (runD_balanced ops (.base bs) hbal).2 s1 hrun
    cases s1 with
    | base bs2 => simp [DStack.intoInner]
    | block inner2 rem2 hn2 => simp [DStack.depth] at hd

/-- Witness for C9: a balanced sequence opening two nested blocks over the
stream `[2, 7, 0, 0]` (one chunk of two bytes, then an empty terminal
chunk), with the protocol-violation equations at concrete states. -/
theorem c9_skip_protocol_panics_witness :
    DStack.endSkippable (.base [2, 7, 0, 0]) = (.error .panicked, .base [2, 7, 0, 0]) ∧
    DStack.intoInner (.block (.base []) 0 true) = .error .panicked ∧
    WStack.endSkippableW (.wbase [1]) = .error .panicked ∧
    WStack.intoInnerW (.wblock (.wbase [1]) [5]) = .error .panicked ∧
    (∃ res, runW [.openB, .move [7], .openB, .closeB, .closeB] (.wbase [1]) =
        .ok (.wbase res) ∧ WStack.intoInnerW (.wbase res) = .ok res) ∧
    (runD [.openB, .move [7], .openB, .closeB, .closeB] (.base [2, 7, 0, 0])).1 ≠
      .error .panicked ∧
    (∀ s1, runD [.openB, .move [7], .openB, .closeB, .closeB] (.base [2, 7, 0, 0]) =
        (.ok (), s1) → DStack.intoInner s1 ≠ .error .panicked) :=
  c9_skip_protocol_panics [2, 7, 0, 0] [1] [5] (.base []) 0 true (.wbase [1])
    [.openB, .move [7], .openB, .closeB, .closeB] (by decide)

end Postbag
